import Mathlib

/-!
Verification development for the avalanchego consensus-engine sources.

Bytes are modelled as natural numbers (well-formed byte strings have all
entries < 256); 32-byte identifiers are modelled as byte lists.  Machine
integer truncation (uint32 / uint64 casts) is modelled with explicit
`% 2 ^ 32` / `% 2 ^ 64`.
-/

set_option maxRecDepth 4000

/-- Big-endian encoding of `v` into exactly `w` bytes, truncating `v`
modulo `256 ^ w` the way Go's fixed-width integer casts do. -/
def beBytes : Nat → Nat → List Nat
  | 0, _ => []
  | w + 1, v => beBytes w (v / 256) ++ [v % 256]

/-- Big-endian decoding of a byte list, as in `binary.BigEndian.UintNN`. -/
def fromBytes (l : List Nat) : Nat :=
  l.foldl (fun acc b => acc * 256 + b) 0

theorem beBytes_length (w v : Nat) : (beBytes w v).length = w := by
  induction w generalizing v with
  | zero => rfl
  | succ w ih => simp [beBytes, ih]

theorem fromBytes_aux (l : List Nat) (a : Nat) :
    l.foldl (fun acc b => acc * 256 + b) a = a * 256 ^ l.length + fromBytes l := by
  induction l generalizing a with
  | nil => simp [fromBytes]
  | cons x xs ih =>
    simp only [List.foldl_cons, fromBytes, List.length_cons]
    rw [ih, ih (0 * 256 + x)]
    ring

theorem mod_div_decompose (v p : Nat) :
    v / 256 % p * 256 + v % 256 = v % (p * 256) := by
  rw [mul_comm p 256, Nat.mod_mul]
  ring

theorem fromBytes_beBytes (w v : Nat) : fromBytes (beBytes w v) = v % 256 ^ w := by
  induction w generalizing v with
  | zero => simp [beBytes, fromBytes, Nat.mod_one]
  | succ w ih =>
    simp only [beBytes, fromBytes, List.foldl_append, List.foldl_cons, List.foldl_nil]
    rw [show (List.foldl (fun acc b => acc * 256 + b) 0 (beBytes w (v / 256))) = fromBytes (beBytes w (v / 256)) from rfl]
    rw [ih, pow_succ, ← mod_div_decompose v (256 ^ w)]

theorem fromBytes_beBytes_of_lt (w v : Nat) (h : v < 256 ^ w) :
    fromBytes (beBytes w v) = v := by
  rw [fromBytes_beBytes, Nat.mod_eq_of_lt h]

/-- State of `wrappers.Packer` during unpacking: the byte string, the read
offset, and the sticky error flag (`p.Errored()`). -/
structure Packer where
  bytes : List Nat
  offset : Nat
  errored : Bool
deriving Repr, DecidableEq

/-- Model of `p.Add(err)`: record an error if `e` holds. -/
def Packer.add (p : Packer) (e : Bool) : Packer :=
  { p with errored := p.errored || e }

/-- Model of `p.UnpackFixedBytes(n)`: `CheckSpace(n)` then read `n` bytes,
returning nil and not advancing when errored. -/
def Packer.unpackFixed (p : Packer) (n : Nat) : List Nat × Packer :=
  let p' : Packer :=
    if p.offset + n ≤ p.bytes.length then p else { p with errored := true }
  if p'.errored then ([], p')
  else ((p'.bytes.drop p'.offset).take n, { p' with offset := p'.offset + n })

/-- Model of `p.UnpackShort()` (big-endian `u16`). -/
def Packer.unpackShort (p : Packer) : Nat × Packer :=
  match p.unpackFixed 2 with
  | (bs, p1) => (fromBytes bs, p1)

/-- Model of `p.UnpackInt()` (big-endian `u32`). -/
def Packer.unpackInt (p : Packer) : Nat × Packer :=
  match p.unpackFixed 4 with
  | (bs, p1) => (fromBytes bs, p1)

/-- Model of `p.UnpackLong()` (big-endian `u64`). -/
def Packer.unpackLong (p : Packer) : Nat × Packer :=
  match p.unpackFixed 8 with
  | (bs, p1) => (fromBytes bs, p1)

/-- Model of `p.UnpackBytes()`: a `u32` length followed by that many bytes. -/
def Packer.unpackBytes (p : Packer) : List Nat × Packer :=
  match p.unpackInt with
  | (n, p1) => p1.unpackFixed n

theorem unpackFixed_exact (pre mid suf : List Nat) (n : Nat)
    (hmid : mid.length = n) :
    Packer.unpackFixed ⟨pre ++ (mid ++ suf), pre.length, false⟩ n =
      (mid, ⟨pre ++ (mid ++ suf), pre.length + n, false⟩) := by
  have hle : pre.length + n ≤ (pre ++ (mid ++ suf)).length := by
    simp only [List.length_append, ← hmid]
    omega
  simp only [Packer.unpackFixed, hle, if_true, if_pos]
  simp only [if_neg (by simp : ¬(false = true))]
  congr 1
  show List.take n (List.drop pre.length (pre ++ (mid ++ suf))) = mid
  rw [List.drop_left, ← hmid, List.take_left]

theorem unpackShort_exact (pre suf : List Nat) (v : Nat) (hv : v < 256 ^ 2) :
    Packer.unpackShort ⟨pre ++ (beBytes 2 v ++ suf), pre.length, false⟩ =
      (v, ⟨pre ++ (beBytes 2 v ++ suf), pre.length + 2, false⟩) := by
  unfold Packer.unpackShort
  rw [unpackFixed_exact pre (beBytes 2 v) suf 2 (beBytes_length 2 v)]
  simp [fromBytes_beBytes_of_lt 2 v hv]

theorem unpackInt_exact (pre suf : List Nat) (v : Nat) (hv : v < 256 ^ 4) :
    Packer.unpackInt ⟨pre ++ (beBytes 4 v ++ suf), pre.length, false⟩ =
      (v, ⟨pre ++ (beBytes 4 v ++ suf), pre.length + 4, false⟩) := by
  unfold Packer.unpackInt
  rw [unpackFixed_exact pre (beBytes 4 v) suf 4 (beBytes_length 4 v)]
  simp [fromBytes_beBytes_of_lt 4 v hv]

theorem unpackLong_exact (pre suf : List Nat) (v : Nat) (hv : v < 256 ^ 8) :
    Packer.unpackLong ⟨pre ++ (beBytes 8 v ++ suf), pre.length, false⟩ =
      (v, ⟨pre ++ (beBytes 8 v ++ suf), pre.length + 8, false⟩) := by
  unfold Packer.unpackLong
  rw [unpackFixed_exact pre (beBytes 8 v) suf 8 (beBytes_length 8 v)]
  simp [fromBytes_beBytes_of_lt 8 v hv]

theorem packer_reshape (pre mid suf : List Nat) (k : Nat)
    (hk : k = pre.length + mid.length) :
    (⟨pre ++ (mid ++ suf), k, false⟩ : Packer) =
      ⟨(pre ++ mid) ++ suf, (pre ++ mid).length, false⟩ := by
  simp [List.append_assoc, hk]

/-- A transaction as seen by the vertex serialiser: an identifier (its
32-byte content hash) and its binary representation. -/
structure Tx where
  txid : List Nat
  bytes : List Nat
deriving Repr, DecidableEq

/-- The serialisable fields of a `vertex` (`part_001`): chain ID, height,
epoch and parent IDs, plus the contained transactions. -/
structure Vtx where
  chainID : List Nat
  height : Nat
  epoch : Nat
  parentIDs : List (List Nat)
  txs : List Tx
deriving Repr, DecidableEq

/-- The result of `manager.parseVertex`: a vertex whose `id` is the hash of
the input bytes, together with the parsed fields and the raw bytes. -/
structure ParsedVtx where
  pid : List Nat
  chainID : List Nat
  height : Nat
  epoch : Nat
  parentIDs : List (List Nat)
  txs : List Tx
  bytes : List Nat
deriving Repr, DecidableEq

/-- `maxVertexSize = 1 << 20`. -/
def maxVertexSize : Nat := 1 <<< 20

/-- The byte string assembled by `vertex.Marshal`: codec version 0, the
32-byte chain ID, the height as `u64`, the constant epoch 0, the parent
count and parent IDs, then the length-prefixed transaction bytes.  Counts
are packed through `uint32` casts, hence the `% 2 ^ 32` truncations
carried by `beBytes 4`. -/
def Vtx.marshalBytes (v : Vtx) : List Nat :=
  beBytes 2 0 ++ (v.chainID ++ (beBytes 8 v.height ++ (beBytes 4 0 ++
    (beBytes 4 v.parentIDs.length ++ (v.parentIDs.flatten ++
    (beBytes 4 v.txs.length ++
      (v.txs.map (fun t => beBytes 4 t.bytes.length ++ t.bytes)).flatten))))))

/-- Model of `vertex.Marshal`: the packer fails (sticky `p.Err`) exactly
when the assembled bytes would exceed `maxVertexSize`. -/
def Vtx.Marshal (v : Vtx) : Option (List Nat) :=
  if v.marshalBytes.length ≤ maxVertexSize then some v.marshalBytes else none

/-- Model of the parent-ID loop of `manager.parseVertex`:
`for i := p.UnpackInt(); i > 0 && !p.Errored(); i--` reading 32-byte IDs. -/
def unpackParentsLoop : Nat → Packer → List (List Nat) × Packer
  | 0, p => ([], p)
  | i + 1, p =>
    if p.errored then ([], p)
    else
      match p.unpackFixed 32 with
      | (pid, p1) =>
        match unpackParentsLoop i p1 with
        | (rest, p2) => (pid :: rest, p2)

/-- Model of the transaction loop of `manager.parseVertex`: each iteration
unpacks a length-prefixed byte string and feeds it to `parseTxF`, adding
the parse error to the packer.  (On the error path the Go code appends a
nil transaction that is discarded with the error; the model omits the
dead value.) -/
def unpackTxsLoop (parseTxF : List Nat → Option Tx) : Nat → Packer → List Tx × Packer
  | 0, p => ([], p)
  | i + 1, p =>
    if p.errored then ([], p)
    else
      match p.unpackBytes with
      | (tb, p1) =>
        match parseTxF tb with
        | some tx =>
          match unpackTxsLoop parseTxF i p1 with
          | (rest, p2) => (tx :: rest, p2)
        | none => ([], p1.add true)

/-- Model of `manager.parseVertex` (`state.go`): accumulate errors for a
codec version other than 0, a non-zero epoch, failed reads, failed
transaction parses and unused trailing bytes; on any error return `none`,
otherwise the vertex with `id = hash b` and `bytes = b`.  The hash and the
transaction parser (`m.parseTxF`, supplied by the VM) are parameters. -/
def parseVertex (hash : List Nat → List Nat) (parseTxF : List Nat → Option Tx)
    (b : List Nat) : Option ParsedVtx :=
  match (⟨b, 0, false⟩ : Packer).unpackShort with
  | (codecID, pA) =>
  match (pA.add (codecID != 0)).unpackFixed 32 with
  | (chainID, p2) =>
  match p2.unpackLong with
  | (height, p3) =>
  match p3.unpackInt with
  | (gotEpoch, pB) =>
  match (pB.add (gotEpoch != 0)).unpackInt with
  | (numParents, p5) =>
  match unpackParentsLoop numParents p5 with
  | (parentIDs, p6) =>
  match p6.unpackInt with
  | (numTxs, p7) =>
  match unpackTxsLoop parseTxF numTxs p7 with
  | (txs, p8) =>
  if (p8.add (p8.offset != b.length)).errored then none
  else some ⟨hash b, chainID, height, 0, parentIDs, txs, b⟩

theorem unpackBytes_exact (pre suf bs : List Nat) (h : bs.length < 256 ^ 4) :
    Packer.unpackBytes ⟨pre ++ ((beBytes 4 bs.length ++ bs) ++ suf), pre.length, false⟩ =
      (bs, ⟨pre ++ ((beBytes 4 bs.length ++ bs) ++ suf), pre.length + (4 + bs.length), false⟩) := by
  have hshape : (beBytes 4 bs.length ++ bs) ++ suf = beBytes 4 bs.length ++ (bs ++ suf) := by
    simp [List.append_assoc]
  unfold Packer.unpackBytes
  rw [hshape, unpackInt_exact pre (bs ++ suf) bs.length h]
  have hre := packer_reshape pre (beBytes 4 bs.length) (bs ++ suf) (pre.length + 4)
    (by simp [beBytes_length])
  simp only [hre]
  rw [unpackFixed_exact (pre ++ beBytes 4 bs.length) bs suf bs.length rfl]
  have h2 : (pre ++ beBytes 4 bs.length).length + bs.length = pre.length + (4 + bs.length) := by
    simp [List.length_append, beBytes_length]
    ring
  rw [h2]
  simp [List.append_assoc]

theorem unpackParentsLoop_exact (parents : List (List Nat)) (pre suf : List Nat)
    (hlen : ∀ x ∈ parents, x.length = 32) :
    unpackParentsLoop parents.length ⟨pre ++ (parents.flatten ++ suf), pre.length, false⟩ =
      (parents, ⟨pre ++ (parents.flatten ++ suf), pre.length + parents.flatten.length, false⟩) := by
  induction parents generalizing pre with
  | nil => simp [unpackParentsLoop]
  | cons x xs ih =>
    have hx : x.length = 32 := hlen x (by simp)
    have hxs : ∀ y ∈ xs, y.length = 32 := fun y hy => hlen y (by simp [hy])
    have hshape : (x :: xs).flatten ++ suf = x ++ (xs.flatten ++ suf) := by
      simp [List.append_assoc]
    simp only [List.length_cons, unpackParentsLoop, hshape]
    simp only [if_neg (by simp : ¬((⟨pre ++ (x ++ (xs.flatten ++ suf)), pre.length, false⟩ : Packer).errored = true))]
    rw [unpackFixed_exact pre x (xs.flatten ++ suf) 32 hx]
    have hre := packer_reshape pre x (xs.flatten ++ suf) (pre.length + 32) (by simp [hx])
    simp only [hre]
    rw [ih (pre ++ x) hxs]
    have h1 : (pre ++ x) ++ (xs.flatten ++ suf) = pre ++ ((x :: xs).flatten ++ suf) := by
      simp [List.append_assoc]
    have h2 : (pre ++ x).length + xs.flatten.length = pre.length + (x :: xs).flatten.length := by
      simp [List.length_append]
      ring
    rw [h1, h2]
    simp [hshape]

/-- The length-prefixed encoding of a transaction list, as packed by the
final loop of `vertex.Marshal`. -/
def encTxs (txs : List Tx) : List Nat :=
  (txs.map (fun t => beBytes 4 t.bytes.length ++ t.bytes)).flatten

theorem unpackTxsLoop_exact (parseTxF : List Nat → Option Tx) (txs : List Tx)
    (pre : List Nat)
    (hinv : ∀ t ∈ txs, parseTxF t.bytes = some t)
    (hlen : ∀ t ∈ txs, t.bytes.length < 256 ^ 4) :
    unpackTxsLoop parseTxF txs.length ⟨pre ++ encTxs txs, pre.length, false⟩ =
      (txs, ⟨pre ++ encTxs txs, pre.length + (encTxs txs).length, false⟩) := by
  induction txs generalizing pre with
  | nil => simp [unpackTxsLoop, encTxs]
  | cons t ts ih =>
    have ht : parseTxF t.bytes = some t := hinv t (by simp)
    have htl : t.bytes.length < 256 ^ 4 := hlen t (by simp)
    have hts : ∀ u ∈ ts, parseTxF u.bytes = some u := fun u hu => hinv u (by simp [hu])
    have htsl : ∀ u ∈ ts, u.bytes.length < 256 ^ 4 := fun u hu => hlen u (by simp [hu])
    have hshape : encTxs (t :: ts) = (beBytes 4 t.bytes.length ++ t.bytes) ++ encTxs ts := by
      simp [encTxs]
    simp only [List.length_cons, unpackTxsLoop, hshape]
    simp only [if_neg (by simp : ¬((⟨pre ++ ((beBytes 4 t.bytes.length ++ t.bytes) ++ encTxs ts), pre.length, false⟩ : Packer).errored = true))]
    rw [unpackBytes_exact pre (encTxs ts) t.bytes htl]
    simp only [ht]
    have hre := packer_reshape pre (beBytes 4 t.bytes.length ++ t.bytes) (encTxs ts)
      (pre.length + (4 + t.bytes.length)) (by simp [List.length_append, beBytes_length])
    simp only [hre]
    rw [ih (pre ++ (beBytes 4 t.bytes.length ++ t.bytes)) hts htsl]
    have h1 : (pre ++ (beBytes 4 t.bytes.length ++ t.bytes)) ++ encTxs ts =
        pre ++ ((beBytes 4 t.bytes.length ++ t.bytes) ++ encTxs ts) := by
      simp [List.append_assoc]
    have h2 : (pre ++ (beBytes 4 t.bytes.length ++ t.bytes)).length + (encTxs ts).length =
        pre.length + ((beBytes 4 t.bytes.length ++ t.bytes) ++ encTxs ts).length := by
      simp [List.length_append, beBytes_length]
      ring
    rw [h1, h2]

theorem join_length_const (l : List (List Nat)) (h : ∀ x ∈ l, x.length = 32) :
    l.flatten.length = 32 * l.length := by
  induction l with
  | nil => simp
  | cons x xs ih =>
    have hx : x.length = 32 := h x (by simp)
    have hxs := ih (fun y hy => h y (by simp [hy]))
    simp [List.length_append, hx, hxs]
    ring

theorem encTxs_length_lower (txs : List Tx) : 4 * txs.length ≤ (encTxs txs).length := by
  induction txs with
  | nil => simp [encTxs]
  | cons t ts ih =>
    simp only [encTxs, List.map_cons, List.flatten_cons, List.length_append,
      List.length_cons, beBytes_length] at *
    omega

theorem tx_bytes_le_encTxs (txs : List Tx) (t : Tx) (ht : t ∈ txs) :
    t.bytes.length ≤ (encTxs txs).length := by
  induction txs with
  | nil => simp at ht
  | cons u ts ih =>
    simp only [encTxs, List.map_cons, List.flatten_cons, List.length_append, beBytes_length]
    rcases List.mem_cons.mp ht with h | h
    · subst h; omega
    · have := ih h
      simp only [encTxs] at this
      omega

theorem marshalBytes_length (v : Vtx) (hchain : v.chainID.length = 32) :
    v.marshalBytes.length = 54 + v.parentIDs.flatten.length + (encTxs v.txs).length := by
  simp [Vtx.marshalBytes, encTxs, beBytes_length, List.length_append, hchain]
  omega

theorem parseVertex_steps (hash : List Nat → List Nat)
    (parseTxF : List Nat → Option Tx) (b : List Nat)
    (chainID : List Nat) (height np nt : Nat)
    (parents : List (List Nat)) (txs : List Tx)
    (o2 o3 o4 o5 o6 o7 o8 o9 : Nat)
    (h1 : Packer.unpackShort ⟨b, 0, false⟩ = (0, ⟨b, o2, false⟩))
    (h2 : Packer.unpackFixed ⟨b, o2, false⟩ 32 = (chainID, ⟨b, o3, false⟩))
    (h3 : Packer.unpackLong ⟨b, o3, false⟩ = (height, ⟨b, o4, false⟩))
    (h4 : Packer.unpackInt ⟨b, o4, false⟩ = (0, ⟨b, o5, false⟩))
    (h5 : Packer.unpackInt ⟨b, o5, false⟩ = (np, ⟨b, o6, false⟩))
    (h6 : unpackParentsLoop np ⟨b, o6, false⟩ = (parents, ⟨b, o7, false⟩))
    (h7 : Packer.unpackInt ⟨b, o7, false⟩ = (nt, ⟨b, o8, false⟩))
    (h8 : unpackTxsLoop parseTxF nt ⟨b, o8, false⟩ = (txs, ⟨b, o9, false⟩))
    (h9 : o9 = b.length) :
    parseVertex hash parseTxF b = some ⟨hash b, chainID, height, 0, parents, txs, b⟩ := by
  unfold parseVertex
  rw [h1]
  split
  rename_i cid pA heq
  cases heq
  rw [show Packer.add ⟨b, o2, false⟩ ((0 : Nat) != 0) = ⟨b, o2, false⟩ from rfl]
  rw [h2]
  split
  rename_i cid2 p2 heq
  cases heq
  rw [h3]
  split
  rename_i hgt p3 heq
  cases heq
  rw [h4]
  split
  rename_i ge pB heq
  cases heq
  rw [show Packer.add ⟨b, o5, false⟩ ((0 : Nat) != 0) = ⟨b, o5, false⟩ from rfl]
  rw [h5]
  split
  rename_i npv p5 heq
  cases heq
  rw [h6]
  split
  rename_i pids p6 heq
  cases heq
  rw [h7]
  split
  rename_i ntv p7 heq
  cases heq
  rw [h8]
  split
  rename_i txsv p8 heq
  cases heq
  subst h9
  simp [Packer.add]

/-- C3: for every well-formed vertex (sorted unique parent IDs, non-empty
sorted unique transactions, total serialised size within 1 MiB), parsing
the bytes produced by `Marshal` yields a vertex with the same chain ID,
height, epoch, parent IDs, transactions and bytes, whose ID is the hash
of those bytes: `parseVertex` composed with `Marshal` is the identity on
well-formed vertices. -/
theorem c3_parse_marshal_roundtrip (hash : List Nat → List Nat)
    (parseTxF : List Nat → Option Tx) (v : Vtx) (bs : List Nat)
    (hchain : v.chainID.length = 32)
    (hpar32 : ∀ x ∈ v.parentIDs, x.length = 32)
    (hparSorted : List.Chain' (fun a b => List.Lex (· < ·) a b) v.parentIDs)
    (htxsNe : v.txs ≠ [])
    (htxsSorted : List.Chain' (fun a b => List.Lex (· < ·) a.txid b.txid) v.txs)
    (hepoch : v.epoch = 0)
    (hheight : v.height < 2 ^ 64)
    (hparse : ∀ t ∈ v.txs, parseTxF t.bytes = some t)
    (hm : v.Marshal = some bs) :
    parseVertex hash parseTxF bs =
      some ⟨hash bs, v.chainID, v.height, v.epoch, v.parentIDs, v.txs, bs⟩ := by
  have hmm : v.marshalBytes.length ≤ maxVertexSize ∧ v.marshalBytes = bs := by
    unfold Vtx.Marshal at hm
    by_cases h : v.marshalBytes.length ≤ maxVertexSize
    · simp [h] at hm
      exact ⟨h, hm⟩
    · simp [h] at hm
  obtain ⟨hsize, rfl⟩ := hmm
  have hflat : v.parentIDs.flatten.length = 32 * v.parentIDs.length :=
    join_length_const v.parentIDs hpar32
  have hsize' : v.marshalBytes.length ≤ 1048576 := by
    simpa [maxVertexSize] using hsize
  have hlenEq := marshalBytes_length v hchain
  have hnp : v.parentIDs.length < 256 ^ 4 := by
    rw [hlenEq, hflat] at hsize'
    norm_num
    omega
  have hnt : v.txs.length < 256 ^ 4 := by
    have := encTxs_length_lower v.txs
    rw [hlenEq] at hsize'
    norm_num
    omega
  have htb : ∀ t ∈ v.txs, t.bytes.length < 256 ^ 4 := by
    intro t ht
    have := tx_bytes_le_encTxs v.txs t ht
    rw [hlenEq] at hsize'
    norm_num
    omega
  have hM : v.marshalBytes = beBytes 2 0 ++ (v.chainID ++ (beBytes 8 v.height ++
      (beBytes 4 0 ++ (beBytes 4 v.parentIDs.length ++ (v.parentIDs.flatten ++
      (beBytes 4 v.txs.length ++ encTxs v.txs)))))) := rfl
  have s1 : Packer.unpackShort ⟨v.marshalBytes, 0, false⟩ =
      (0, ⟨v.marshalBytes, 2, false⟩) := by
    have h := unpackShort_exact [] (v.chainID ++ (beBytes 8 v.height ++
      (beBytes 4 0 ++ (beBytes 4 v.parentIDs.length ++ (v.parentIDs.flatten ++
      (beBytes 4 v.txs.length ++ encTxs v.txs)))))) 0 (by norm_num)
    simpa [hM] using h
  have s2 : Packer.unpackFixed ⟨v.marshalBytes, 2, false⟩ 32 =
      (v.chainID, ⟨v.marshalBytes, 34, false⟩) := by
    have h := unpackFixed_exact (beBytes 2 0) v.chainID (beBytes 8 v.height ++
      (beBytes 4 0 ++ (beBytes 4 v.parentIDs.length ++ (v.parentIDs.flatten ++
      (beBytes 4 v.txs.length ++ encTxs v.txs))))) 32 hchain
    simpa [hM, beBytes_length, List.append_assoc] using h
  have s3 : Packer.unpackLong ⟨v.marshalBytes, 34, false⟩ =
      (v.height, ⟨v.marshalBytes, 42, false⟩) := by
    have h := unpackLong_exact (beBytes 2 0 ++ v.chainID)
      (beBytes 4 0 ++ (beBytes 4 v.parentIDs.length ++ (v.parentIDs.flatten ++
      (beBytes 4 v.txs.length ++ encTxs v.txs)))) v.height (by simpa using hheight)
    simpa [hM, beBytes_length, List.length_append, hchain, List.append_assoc] using h
  have s4 : Packer.unpackInt ⟨v.marshalBytes, 42, false⟩ =
      (0, ⟨v.marshalBytes, 46, false⟩) := by
    have h := unpackInt_exact (beBytes 2 0 ++ (v.chainID ++ beBytes 8 v.height))
      (beBytes 4 v.parentIDs.length ++ (v.parentIDs.flatten ++
      (beBytes 4 v.txs.length ++ encTxs v.txs))) 0 (by norm_num)
    simpa [hM, beBytes_length, List.length_append, hchain, List.append_assoc] using h
  have s5 : Packer.unpackInt ⟨v.marshalBytes, 46, false⟩ =
      (v.parentIDs.length, ⟨v.marshalBytes, 50, false⟩) := by
    have h := unpackInt_exact (beBytes 2 0 ++ (v.chainID ++ (beBytes 8 v.height ++
      beBytes 4 0))) (v.parentIDs.flatten ++ (beBytes 4 v.txs.length ++ encTxs v.txs))
      v.parentIDs.length hnp
    simpa [hM, beBytes_length, List.length_append, hchain, List.append_assoc] using h
  have s6 : unpackParentsLoop v.parentIDs.length ⟨v.marshalBytes, 50, false⟩ =
      (v.parentIDs, ⟨v.marshalBytes, 50 + v.parentIDs.flatten.length, false⟩) := by
    have h := unpackParentsLoop_exact v.parentIDs
      (beBytes 2 0 ++ (v.chainID ++ (beBytes 8 v.height ++ (beBytes 4 0 ++
        beBytes 4 v.parentIDs.length))))
      (beBytes 4 v.txs.length ++ encTxs v.txs) hpar32
    simpa [hM, beBytes_length, List.length_append, hchain, List.append_assoc] using h
  have s7 : Packer.unpackInt ⟨v.marshalBytes, 50 + v.parentIDs.flatten.length, false⟩ =
      (v.txs.length, ⟨v.marshalBytes, 54 + v.parentIDs.flatten.length, false⟩) := by
    have h := unpackInt_exact (beBytes 2 0 ++ (v.chainID ++ (beBytes 8 v.height ++
      (beBytes 4 0 ++ (beBytes 4 v.parentIDs.length ++ v.parentIDs.flatten)))))
      (encTxs v.txs) v.txs.length hnt
    have hpl : (beBytes 2 0 ++ (v.chainID ++ (beBytes 8 v.height ++
      (beBytes 4 0 ++ (beBytes 4 v.parentIDs.length ++ v.parentIDs.flatten))))).length =
        50 + v.parentIDs.flatten.length := by
      simp [beBytes_length, List.length_append, hchain]
      omega
    rw [hpl] at h
    have hoff : 50 + v.parentIDs.flatten.length + 4 = 54 + v.parentIDs.flatten.length := by omega
    rw [hoff] at h
    simpa [hM, List.append_assoc] using h
  have s8 : unpackTxsLoop parseTxF v.txs.length
      ⟨v.marshalBytes, 54 + v.parentIDs.flatten.length, false⟩ =
      (v.txs, ⟨v.marshalBytes,
        54 + v.parentIDs.flatten.length + (encTxs v.txs).length, false⟩) := by
    have h := unpackTxsLoop_exact parseTxF v.txs
      (beBytes 2 0 ++ (v.chainID ++ (beBytes 8 v.height ++ (beBytes 4 0 ++
        (beBytes 4 v.parentIDs.length ++ (v.parentIDs.flatten ++
          beBytes 4 v.txs.length)))))) hparse htb
    have hpl : (beBytes 2 0 ++ (v.chainID ++ (beBytes 8 v.height ++ (beBytes 4 0 ++
        (beBytes 4 v.parentIDs.length ++ (v.parentIDs.flatten ++
          beBytes 4 v.txs.length)))))).length = 54 + v.parentIDs.flatten.length := by
      simp [beBytes_length, List.length_append, hchain]
      omega
    rw [hpl] at h
    simpa [hM, List.append_assoc] using h
  have s9 : ((54 + v.parentIDs.flatten.length + (encTxs v.txs).length : Nat) !=
      v.marshalBytes.length) = false := by
    rw [hlenEq]
    simp
  rw [hepoch]
  exact parseVertex_steps hash parseTxF v.marshalBytes v.chainID v.height
    v.parentIDs.length v.txs.length v.parentIDs v.txs
    2 34 42 46 50 (50 + v.parentIDs.flatten.length)
    (54 + v.parentIDs.flatten.length)
    (54 + v.parentIDs.flatten.length + (encTxs v.txs).length)
    s1 s2 s3 s4 s5 s6 s7 s8 (by rw [hlenEq])

theorem fromBytes_eq_zero (l : List Nat) (h : fromBytes l = 0) : ∀ x ∈ l, x = 0 := by
  induction l with
  | nil => simp
  | cons x xs ih =>
    have hx : fromBytes (x :: xs) = x * 256 ^ xs.length + fromBytes xs := by
      show List.foldl (fun acc b => acc * 256 + b) (0 * 256 + x) xs = _
      rw [fromBytes_aux]
      ring_nf
    rw [hx] at h
    have hx0 : x = 0 := by
      by_contra hne
      have : 1 ≤ x := Nat.one_le_iff_ne_zero.mpr hne
      have : 256 ^ xs.length ≤ x * 256 ^ xs.length := Nat.le_mul_of_pos_left _ (by omega)
      have hpow : 0 < 256 ^ xs.length := Nat.pos_pow_of_pos _ (by norm_num)
      omega
    subst hx0
    simp at h
    intro y hy
    rcases List.mem_cons.mp hy with rfl | hmem
    · rfl
    · exact ih h y hmem

theorem Packer.unpackFixed_inv (p q : Packer) (n : Nat) (res : List Nat)
    (h : p.unpackFixed n = (res, q)) (hq : q.errored = false) :
    p.errored = false ∧ p.offset + n ≤ p.bytes.length ∧
      res = (p.bytes.drop p.offset).take n ∧ q = ⟨p.bytes, p.offset + n, false⟩ := by
  obtain ⟨bts, off, err⟩ := p
  unfold Packer.unpackFixed at h
  by_cases hsp : off + n ≤ bts.length
  · simp only [hsp, if_true] at h
    by_cases he : err = true
    · subst he
      simp at h
      obtain ⟨_, rfl⟩ := h
      simp at hq
    · have he' : err = false := by simpa using he
      subst he'
      simp at h
      obtain ⟨hres, rfl⟩ := h
      exact ⟨rfl, hsp, hres.symm, rfl⟩
  · simp only [hsp, if_false] at h
    simp at h
    obtain ⟨_, rfl⟩ := h
    simp at hq

theorem Packer.unpackShort_inv (p q : Packer) (res : Nat)
    (h : p.unpackShort = (res, q)) (hq : q.errored = false) :
    p.errored = false ∧ p.offset + 2 ≤ p.bytes.length ∧
      res = fromBytes ((p.bytes.drop p.offset).take 2) ∧ q = ⟨p.bytes, p.offset + 2, false⟩ := by
  unfold Packer.unpackShort at h
  rcases hf : p.unpackFixed 2 with ⟨bs, q'⟩
  rw [hf] at h
  simp at h
  obtain ⟨hres, rfl⟩ := h
  obtain ⟨h1, h2, h3, h4⟩ := Packer.unpackFixed_inv p q' 2 bs hf hq
  exact ⟨h1, h2, by rw [← hres, h3], h4⟩

theorem Packer.unpackInt_inv (p q : Packer) (res : Nat)
    (h : p.unpackInt = (res, q)) (hq : q.errored = false) :
    p.errored = false ∧ p.offset + 4 ≤ p.bytes.length ∧
      res = fromBytes ((p.bytes.drop p.offset).take 4) ∧ q = ⟨p.bytes, p.offset + 4, false⟩ := by
  unfold Packer.unpackInt at h
  rcases hf : p.unpackFixed 4 with ⟨bs, q'⟩
  rw [hf] at h
  simp at h
  obtain ⟨hres, rfl⟩ := h
  obtain ⟨h1, h2, h3, h4⟩ := Packer.unpackFixed_inv p q' 4 bs hf hq
  exact ⟨h1, h2, by rw [← hres, h3], h4⟩

theorem Packer.unpackLong_inv (p q : Packer) (res : Nat)
    (h : p.unpackLong = (res, q)) (hq : q.errored = false) :
    p.errored = false ∧ p.offset + 8 ≤ p.bytes.length ∧
      res = fromBytes ((p.bytes.drop p.offset).take 8) ∧ q = ⟨p.bytes, p.offset + 8, false⟩ := by
  unfold Packer.unpackLong at h
  rcases hf : p.unpackFixed 8 with ⟨bs, q'⟩
  rw [hf] at h
  simp at h
  obtain ⟨hres, rfl⟩ := h
  obtain ⟨h1, h2, h3, h4⟩ := Packer.unpackFixed_inv p q' 8 bs hf hq
  exact ⟨h1, h2, by rw [← hres, h3], h4⟩

theorem unpackParentsLoop_inv (n : Nat) (p q : Packer) (res : List (List Nat))
    (h : unpackParentsLoop n p = (res, q)) (hq : q.errored = false) :
    p.errored = false ∧ q.bytes = p.bytes ∧ p.offset ≤ q.offset := by
  induction n generalizing p res with
  | zero =>
    simp [unpackParentsLoop] at h
    obtain ⟨rfl, rfl⟩ := h
    exact ⟨hq, rfl, le_refl _⟩
  | succ i ih =>
    unfold unpackParentsLoop at h
    by_cases he : p.errored = true
    · simp [he] at h
      obtain ⟨rfl, rfl⟩ := h
      simp [he] at hq
    · have he' : p.errored = false := by simpa using he
      simp only [he', if_neg (by simp : ¬(false = true))] at h
      rcases hf : p.unpackFixed 32 with ⟨pid, p1⟩
      rw [hf] at h
      rcases hl : unpackParentsLoop i p1 with ⟨rest, p2⟩
      rw [hl] at h
      simp at h
      obtain ⟨rfl, rfl⟩ := h
      obtain ⟨hp1e, hp1b, hp1o⟩ := ih p1 rest hl
      obtain ⟨_, _, _, hq4⟩ := Packer.unpackFixed_inv p p1 32 pid hf hp1e
      subst hq4
      simp at hp1b hp1o ⊢
      exact ⟨he', hp1b, by omega⟩

theorem Packer.unpackBytes_inv (p q : Packer) (res : List Nat)
    (h : p.unpackBytes = (res, q)) (hq : q.errored = false) :
    p.errored = false ∧ q.bytes = p.bytes ∧ p.offset ≤ q.offset := by
  unfold Packer.unpackBytes at h
  rcases hi : p.unpackInt with ⟨n1, q1⟩
  rw [hi] at h
  obtain ⟨h1, _, _, hq1⟩ := Packer.unpackFixed_inv q1 q n1 res h hq
  obtain ⟨h2, _, _, hq2⟩ := Packer.unpackInt_inv p q1 n1 hi h1
  subst hq2
  subst hq1
  refine ⟨h2, by simp, ?_⟩
  simp
  omega

theorem unpackTxsLoop_inv (parseTxF : List Nat → Option Tx) (n : Nat)
    (p q : Packer) (res : List Tx)
    (h : unpackTxsLoop parseTxF n p = (res, q)) (hq : q.errored = false) :
    p.errored = false ∧ q.bytes = p.bytes ∧ p.offset ≤ q.offset := by
  induction n generalizing p res with
  | zero =>
    simp [unpackTxsLoop] at h
    obtain ⟨rfl, rfl⟩ := h
    exact ⟨hq, rfl, le_refl _⟩
  | succ i ih =>
    unfold unpackTxsLoop at h
    by_cases he : p.errored = true
    · simp [he] at h
      obtain ⟨rfl, rfl⟩ := h
      simp [he] at hq
    · have he' : p.errored = false := by simpa using he
      simp only [he', if_neg (by simp : ¬(false = true))] at h
      rcases hb : p.unpackBytes with ⟨tb, p1⟩
      rw [hb] at h
      rcases hpt : parseTxF tb with _ | tx
      · simp [hpt] at h
        obtain ⟨rfl, rfl⟩ := h
        simp [Packer.add] at hq
      · simp only [hpt] at h
        rcases hl : unpackTxsLoop parseTxF i p1 with ⟨rest, p2⟩
        rw [hl] at h
        simp at h
        obtain ⟨rfl, rfl⟩ := h
        obtain ⟨hp1e, hp1b, hp1o⟩ := ih p1 rest hl
        obtain ⟨_, hb2, hb3⟩ := Packer.unpackBytes_inv p p1 tb hb hp1e
        exact ⟨he', by rw [hp1b, hb2], by omega⟩

theorem drop_take_append (b c : List Nat) (off n : Nat) (h : off + n ≤ b.length) :
    ((b ++ c).drop off).take n = (b.drop off).take n := by
  rw [List.drop_append_of_le_length (by omega), List.take_append_of_le_length]
  simp [List.length_drop]
  omega

theorem unpackFixed_append (b c : List Nat) (off off' n : Nat) (res : List Nat)
    (h : Packer.unpackFixed ⟨b, off, false⟩ n = (res, ⟨b, off', false⟩)) :
    Packer.unpackFixed ⟨b ++ c, off, false⟩ n = (res, ⟨b ++ c, off', false⟩) := by
  obtain ⟨_, hsp, hres, hq⟩ := Packer.unpackFixed_inv _ _ n res h rfl
  simp only [Packer.mk.injEq] at hq
  simp only at hsp hres
  obtain ⟨_, hoff, _⟩ := hq
  subst hoff
  unfold Packer.unpackFixed
  have hsp' : off + n ≤ (b ++ c).length := by
    simp [List.length_append]
    omega
  simp only [hsp', if_true, if_pos]
  simp only [if_neg (by simp : ¬(false = true))]
  rw [show List.take n (List.drop off (b ++ c)) = res from by
    rw [drop_take_append b c off n hsp, ← hres]]

theorem unpackShort_append (b c : List Nat) (off off' : Nat) (res : Nat)
    (h : Packer.unpackShort ⟨b, off, false⟩ = (res, ⟨b, off', false⟩)) :
    Packer.unpackShort ⟨b ++ c, off, false⟩ = (res, ⟨b ++ c, off', false⟩) := by
  unfold Packer.unpackShort at h ⊢
  rcases hf : Packer.unpackFixed ⟨b, off, false⟩ 2 with ⟨bs, q⟩
  rw [hf] at h
  simp at h
  obtain ⟨hres, hq⟩ := h
  obtain ⟨_, _, _, hq4⟩ := Packer.unpackFixed_inv _ _ 2 bs hf (by rw [hq])
  rw [hq4] at hf
  simp at hq4
  rw [unpackFixed_append b c off (off + 2) 2 bs hf]
  rw [← hres]
  rw [hq4] at hq
  simp at hq
  rw [hq]

theorem unpackInt_append (b c : List Nat) (off off' : Nat) (res : Nat)
    (h : Packer.unpackInt ⟨b, off, false⟩ = (res, ⟨b, off', false⟩)) :
    Packer.unpackInt ⟨b ++ c, off, false⟩ = (res, ⟨b ++ c, off', false⟩) := by
  unfold Packer.unpackInt at h ⊢
  rcases hf : Packer.unpackFixed ⟨b, off, false⟩ 4 with ⟨bs, q⟩
  rw [hf] at h
  simp at h
  obtain ⟨hres, hq⟩ := h
  obtain ⟨_, _, _, hq4⟩ := Packer.unpackFixed_inv _ _ 4 bs hf (by rw [hq])
  rw [hq4] at hf
  simp at hq4
  rw [unpackFixed_append b c off (off + 4) 4 bs hf]
  rw [← hres]
  rw [hq4] at hq
  simp at hq
  rw [hq]

theorem unpackLong_append (b c : List Nat) (off off' : Nat) (res : Nat)
    (h : Packer.unpackLong ⟨b, off, false⟩ = (res, ⟨b, off', false⟩)) :
    Packer.unpackLong ⟨b ++ c, off, false⟩ = (res, ⟨b ++ c, off', false⟩) := by
  unfold Packer.unpackLong at h ⊢
  rcases hf : Packer.unpackFixed ⟨b, off, false⟩ 8 with ⟨bs, q⟩
  rw [hf] at h
  simp at h
  obtain ⟨hres, hq⟩ := h
  obtain ⟨_, _, _, hq4⟩ := Packer.unpackFixed_inv _ _ 8 bs hf (by rw [hq])
  rw [hq4] at hf
  simp at hq4
  rw [unpackFixed_append b c off (off + 8) 8 bs hf]
  rw [← hres]
  rw [hq4] at hq
  simp at hq
  rw [hq]

theorem unpackBytes_append (b c : List Nat) (off off' : Nat) (res : List Nat)
    (h : Packer.unpackBytes ⟨b, off, false⟩ = (res, ⟨b, off', false⟩)) :
    Packer.unpackBytes ⟨b ++ c, off, false⟩ = (res, ⟨b ++ c, off', false⟩) := by
  unfold Packer.unpackBytes at h ⊢
  rcases hi : Packer.unpackInt ⟨b, off, false⟩ with ⟨n1, q1⟩
  rw [hi] at h
  obtain ⟨hq1e, _, _, hq1⟩ := Packer.unpackFixed_inv q1 _ n1 res h rfl
  obtain ⟨_, _, _, hq2⟩ := Packer.unpackInt_inv _ q1 n1 hi hq1e
  rw [hq2] at hi h
  simp only at hi h
  rw [unpackInt_append b c off (off + 4) n1 hi]
  exact unpackFixed_append b c (off + 4) off' n1 res h

theorem unpackParentsLoop_append (n : Nat) (b c : List Nat) (off off' : Nat)
    (res : List (List Nat))
    (h : unpackParentsLoop n ⟨b, off, false⟩ = (res, ⟨b, off', false⟩)) :
    unpackParentsLoop n ⟨b ++ c, off, false⟩ = (res, ⟨b ++ c, off', false⟩) := by
  induction n generalizing off res with
  | zero =>
    simp [unpackParentsLoop] at h ⊢
    exact h
  | succ i ih =>
    unfold unpackParentsLoop at h ⊢
    simp only [if_neg (by simp : ¬((⟨b, off, false⟩ : Packer).errored = true)),
      if_neg (by simp : ¬((⟨b ++ c, off, false⟩ : Packer).errored = true))] at h ⊢
    rcases hf : Packer.unpackFixed ⟨b, off, false⟩ 32 with ⟨pid, p1⟩
    rw [hf] at h
    rcases hl : unpackParentsLoop i p1 with ⟨rest, p2⟩
    rw [hl] at h
    simp at h
    obtain ⟨rfl, hq⟩ := h
    rw [hq] at hl
    obtain ⟨hp1e, hp1b, _⟩ := unpackParentsLoop_inv i p1 _ rest hl rfl
    obtain ⟨_, _, _, hq4⟩ := Packer.unpackFixed_inv _ p1 32 pid hf hp1e
    rw [hq4] at hf hl
    simp only at hf hl
    rw [unpackFixed_append b c off (off + 32) 32 pid hf]
    rw [ih (off + 32) rest hl]

theorem unpackTxsLoop_append (parseTxF : List Nat → Option Tx) (n : Nat)
    (b c : List Nat) (off off' : Nat) (res : List Tx)
    (h : unpackTxsLoop parseTxF n ⟨b, off, false⟩ = (res, ⟨b, off', false⟩)) :
    unpackTxsLoop parseTxF n ⟨b ++ c, off, false⟩ = (res, ⟨b ++ c, off', false⟩) := by
  induction n generalizing off res with
  | zero =>
    simp [unpackTxsLoop] at h ⊢
    exact h
  | succ i ih =>
    unfold unpackTxsLoop at h ⊢
    simp only [if_neg (by simp : ¬((⟨b, off, false⟩ : Packer).errored = true)),
      if_neg (by simp : ¬((⟨b ++ c, off, false⟩ : Packer).errored = true))] at h ⊢
    rcases hb : Packer.unpackBytes ⟨b, off, false⟩ with ⟨tb, p1⟩
    rw [hb] at h
    rcases hpt : parseTxF tb with _ | tx
    · rw [hpt] at h
      simp [Packer.add] at h
    · rw [hpt] at h
      rcases hl : unpackTxsLoop parseTxF i p1 with ⟨rest, p2⟩
      rw [hl] at h
      simp at h
      obtain ⟨rfl, hq⟩ := h
      rw [hq] at hl
      obtain ⟨hp1e, hp1b, _⟩ := unpackTxsLoop_inv parseTxF i p1 _ rest hl rfl
      have hp1shape : p1 = ⟨b, p1.offset, false⟩ := by
        rcases p1 with ⟨pb, po, pe⟩
        simp at hp1e hp1b
        simp [hp1e, hp1b]
      rw [hp1shape] at hb hl
      rw [unpackBytes_append b c off p1.offset tb hb]
      rw [hpt]
      rw [ih p1.offset rest hl]

theorem Packer.add_errored_false (p : Packer) (e : Bool)
    (h : (p.add e).errored = false) : p.errored = false ∧ e = false := by
  simp [Packer.add] at h
  exact h

theorem Packer.add_false (p : Packer) : p.add false = p := by
  simp [Packer.add]

theorem parseVertex_steps_fail (hash : List Nat → List Nat)
    (parseTxF : List Nat → Option Tx) (b : List Nat)
    (chainID : List Nat) (height np nt : Nat)
    (parents : List (List Nat)) (txs : List Tx)
    (o2 o3 o4 o5 o6 o7 o8 o9 : Nat)
    (h1 : Packer.unpackShort ⟨b, 0, false⟩ = (0, ⟨b, o2, false⟩))
    (h2 : Packer.unpackFixed ⟨b, o2, false⟩ 32 = (chainID, ⟨b, o3, false⟩))
    (h3 : Packer.unpackLong ⟨b, o3, false⟩ = (height, ⟨b, o4, false⟩))
    (h4 : Packer.unpackInt ⟨b, o4, false⟩ = (0, ⟨b, o5, false⟩))
    (h5 : Packer.unpackInt ⟨b, o5, false⟩ = (np, ⟨b, o6, false⟩))
    (h6 : unpackParentsLoop np ⟨b, o6, false⟩ = (parents, ⟨b, o7, false⟩))
    (h7 : Packer.unpackInt ⟨b, o7, false⟩ = (nt, ⟨b, o8, false⟩))
    (h8 : unpackTxsLoop parseTxF nt ⟨b, o8, false⟩ = (txs, ⟨b, o9, false⟩))
    (h9 : o9 ≠ b.length) :
    parseVertex hash parseTxF b = none := by
  unfold parseVertex
  rw [h1]
  split
  rename_i cid pA heq
  cases heq
  rw [show Packer.add ⟨b, o2, false⟩ ((0 : Nat) != 0) = ⟨b, o2, false⟩ from rfl]
  rw [h2]
  split
  rename_i cid2 p2 heq
  cases heq
  rw [h3]
  split
  rename_i hgt p3 heq
  cases heq
  rw [h4]
  split
  rename_i ge pB heq
  cases heq
  rw [show Packer.add ⟨b, o5, false⟩ ((0 : Nat) != 0) = ⟨b, o5, false⟩ from rfl]
  rw [h5]
  split
  rename_i npv p5 heq
  cases heq
  rw [h6]
  split
  rename_i pids p6 heq
  cases heq
  rw [h7]
  split
  rename_i ntv p7 heq
  cases heq
  rw [h8]
  split
  rename_i txsv p8 heq
  cases heq
  simp [Packer.add, h9]

theorem take_eq_zeros (l : List Nat) (w : Nat) (hlen : w ≤ l.length)
    (hz : fromBytes (l.take w) = 0) : l.take w = List.replicate w 0 := by
  have h1 : (l.take w).length = w := by
    simp [List.length_take]
    omega
  have h2 := fromBytes_eq_zero _ hz
  apply List.eq_replicate.mpr
  exact ⟨h1, h2⟩

/-- C4: `parseVertex` returns a vertex only when the input carries codec
version 0 (leading two bytes zero), a zero epoch field, and is consumed
exactly: on success the codec and epoch bytes are zero, at least the
fixed header was present, and parsing the same bytes with any non-empty
suffix appended fails with an error, since the suffix would be left
unconsumed.  Contrapositively, a non-zero codec version, a non-zero
epoch, or unused trailing bytes each force an error and no vertex. -/
theorem c4_parse_error_conditions (hash : List Nat → List Nat)
    (parseTxF : List Nat → Option Tx) (b : List Nat) (v : ParsedVtx)
    (h : parseVertex hash parseTxF b = some v) :
    b.take 2 = [0, 0] ∧
    46 ≤ b.length ∧
    (b.drop 42).take 4 = [0, 0, 0, 0] ∧
    ∀ c : List Nat, c ≠ [] → parseVertex hash parseTxF (b ++ c) = none := by
  unfold parseVertex at h
  split at h
  rename_i codecID pA heq1
  split at h
  rename_i chainID p2 heq2
  split at h
  rename_i height p3 heq3
  split at h
  rename_i gotEpoch pB heq4
  split at h
  rename_i numParents p5 heq5
  split at h
  rename_i parentIDs p6 heq6
  split at h
  rename_i numTxs p7 heq7
  split at h
  rename_i txs p8 heq8
  split at h
  · exact absurd h (by simp)
  rename_i herr
  have hp8 : p8.errored = false ∧ (p8.offset != b.length) = false :=
    Packer.add_errored_false p8 _ (by simpa using herr)
  obtain ⟨hp8e, hp8off⟩ := hp8
  have hp8off' : p8.offset = b.length := by simpa using hp8off
  obtain ⟨hp7e, hp7b, hp7o⟩ := unpackTxsLoop_inv parseTxF numTxs p7 p8 txs heq8 hp8e
  obtain ⟨hp6e, _, hgeq7, hp7⟩ := Packer.unpackInt_inv p6 p7 numTxs heq7 hp7e
  obtain ⟨hp5e, hp5b, hp5o⟩ := unpackParentsLoop_inv numParents p5 p6 parentIDs heq6 hp6e
  obtain ⟨hadd5, _, hnp5, hp5⟩ := Packer.unpackInt_inv _ p5 numParents heq5 hp5e
  obtain ⟨hpBe, hge0⟩ := Packer.add_errored_false pB _ hadd5
  have hge0' : gotEpoch = 0 := by simpa using hge0
  obtain ⟨hp3e, hsp4, hge, hpB⟩ := Packer.unpackInt_inv p3 pB gotEpoch heq4 hpBe
  obtain ⟨hp2e, _, _, hp3⟩ := Packer.unpackLong_inv p2 p3 height heq3 hp3e
  obtain ⟨haddA, _, _, hp2⟩ := Packer.unpackFixed_inv _ p2 32 chainID heq2 hp2e
  obtain ⟨hpAe, hcid0⟩ := Packer.add_errored_false pA _ haddA
  have hcid0' : codecID = 0 := by simpa using hcid0
  obtain ⟨_, hsp1, hcid, hpA⟩ := Packer.unpackShort_inv _ pA codecID heq1 hpAe
  subst hpA
  subst hcid0'
  simp only [bne_self_eq_false, Packer.add_false] at heq2 hp2
  subst hp2
  subst hp3
  subst hpB
  subst hge0'
  simp only [bne_self_eq_false, Packer.add_false] at heq5 hp5
  subst hp5
  obtain ⟨p6b, p6o, p6e⟩ := p6
  have hp6e' : p6e = false := hp6e
  subst hp6e'
  have hp5b' : b = p6b := hp5b.symm
  subst hp5b'
  subst hp7
  obtain ⟨p8b, p8o, p8e⟩ := p8
  have hp8e' : p8e = false := hp8e
  subst hp8e'
  have hp7b' : b = p8b := hp7b.symm
  subst hp7b'
  have hp8off2 : p8o = b.length := hp8off'
  subst hp8off2
  have hlen46 : 46 ≤ b.length := hsp4
  refine ⟨?_, hlen46, ?_, ?_⟩
  · have hz : fromBytes (b.take 2) = 0 := hcid.symm
    have ht := take_eq_zeros b 2 (le_trans (by norm_num) hlen46) hz
    simpa using ht
  · have hz : fromBytes ((b.drop 42).take 4) = 0 := hge.symm
    have hlen4 : 4 ≤ (b.drop 42).length := by
      simp only [List.length_drop]
      omega
    have ht := take_eq_zeros _ 4 hlen4 hz
    simpa using ht
  · intro c hc
    have hclen : 0 < c.length := List.length_pos.mpr hc
    exact parseVertex_steps_fail hash parseTxF (b ++ c) chainID height numParents
      numTxs parentIDs txs _ _ _ _ _ _ _ _
      (unpackShort_append b c _ _ _ heq1)
      (unpackFixed_append b c _ _ 32 _ heq2)
      (unpackLong_append b c _ _ _ heq3)
      (unpackInt_append b c _ _ _ heq4)
      (unpackInt_append b c _ _ _ heq5)
      (unpackParentsLoop_append numParents b c _ _ _ heq6)
      (unpackInt_append b c _ _ _ heq7)
      (unpackTxsLoop_append parseTxF numTxs b c _ _ _ heq8)
      (by intro hEq; simp [List.length_append] at hEq; first | exact hc hEq | omega)

/-- A concrete transaction used to instantiate the codec theorems. -/
def wTx : Tx := ⟨[1], [42]⟩

/-- A transaction parser that recognises exactly `wTx`. -/
def wParseTxF : List Nat → Option Tx := fun bs => if bs = [42] then some wTx else none

/-- A concrete well-formed vertex used to instantiate the codec theorems. -/
def wVtx : Vtx := ⟨List.replicate 32 0, 1, 0, [List.replicate 32 7], [wTx]⟩

/-- Witness for C3: the round-trip theorem applied to the concrete vertex
`wVtx`, with every hypothesis discharged by computation. -/
theorem c3_witness : parseVertex (fun b => b) wParseTxF wVtx.marshalBytes =
    some ⟨wVtx.marshalBytes, wVtx.chainID, wVtx.height, wVtx.epoch,
      wVtx.parentIDs, wVtx.txs, wVtx.marshalBytes⟩ :=
  c3_parse_marshal_roundtrip (fun b => b) wParseTxF wVtx wVtx.marshalBytes
    (by decide) (by decide) (by simp [wVtx]) (by decide) (by simp [wVtx])
    (by decide) (by decide) (by decide) (by decide)

/-- Witness for C4: the parse-rejection theorem applied to the marshalled
bytes of the concrete vertex `wVtx`. -/
theorem c4_witness :
    wVtx.marshalBytes.take 2 = [0, 0] ∧
    46 ≤ wVtx.marshalBytes.length ∧
    (wVtx.marshalBytes.drop 42).take 4 = [0, 0, 0, 0] ∧
    ∀ c : List Nat, c ≠ [] →
      parseVertex (fun b => b) wParseTxF (wVtx.marshalBytes ++ c) = none :=
  c4_parse_error_conditions (fun b => b) wParseTxF wVtx.marshalBytes
    ⟨wVtx.marshalBytes, wVtx.chainID, wVtx.height, 0, wVtx.parentIDs, wVtx.txs,
      wVtx.marshalBytes⟩
    (by decide)

/-- Transaction and vertex statuses (`snow/choices`). -/
inductive Status
  | Unknown
  | Processing
  | Accepted
  | Rejected
deriving Repr, DecidableEq

/-- A transaction of the explicit-preclusion conflict manager
(`conflicts.Tx`, `tx.go`): its ID, the IDs returned by `PrecludedBy()` and
`Precludes()`, and the IDs of the transactions returned by
`Dependencies()`.  The statuses of dependencies are read from the
surrounding world (`status`), as the Go code reads
`dependency.Status()`. -/
structure CTx where
  txid : Nat
  precludedBy : List Nat
  precludes : List Nat
  deps : List Nat
deriving Repr, DecidableEq

/-- `ids.Set.Add` for a set modelled as a duplicate-free list (kept in
insertion order, the deterministic stand-in for Go's map iteration). -/
def addId (l : List Nat) (x : Nat) : List Nat := if x ∈ l then l else l ++ [x]

/-- Add several IDs (`set.Add(ids...)`). -/
def addIds (l : List Nat) (xs : List Nat) : List Nat := xs.foldl addId l

/-- `ids.Set.Remove`. -/
def removeId (l : List Nat) (x : Nat) : List Nat := l.filter (fun y => y != x)

/-- Modelled from the spec: an entry of `events.Blocker` (the
`pendingAccept` machinery and the `acceptor` of the conflicts package are
not part of the sources).  Per the spec, "a transaction marked acceptable
is delivered as acceptable only once all its dependencies are Accepted";
an acceptor waits on the unaccepted dependencies and fires when none are
left, unless a dependency was abandoned (rejected) first. -/
structure Acceptor where
  tx : CTx
  deps : List Nat
  rejected : Bool
deriving DecidableEq

/-- The state of the conflict manager (`Conflicts`, `part_005`).  Go maps
are modelled as total functions with the zero value (`none` / `∅`) for
missing keys; `delete` writes the zero value back. -/
structure Conflicts where
  txs : Nat → Option CTx
  precludes : Nat → List Nat
  precludedBy : Nat → List Nat
  dependents : Nat → List Nat
  pendingAccept : List Acceptor
  acceptable : List CTx
  rejectable : List CTx
  rejectableIDs : List Nat

/-- `conflicts.New()`. -/
def Conflicts.New : Conflicts :=
  ⟨fun _ => none, fun _ => [], fun _ => [], fun _ => [], [], [], [], []⟩

/-- The argument of `Add` / `IsVirtuous` / `PrecludedBy` / `Precludes`: a
`choices.Decidable` that either implements the `Tx` interface or does
not (the failed type assertion `txIntf.(Tx)`). -/
inductive TxArg
  | tx (t : CTx)
  | notTx (id : Nat)
deriving DecidableEq

/-- Modelled from the spec: `events.Blocker.Register` — with no pending
dependencies the job fires immediately, otherwise it is parked. -/
def blockerRegister (c : Conflicts) (a : Acceptor) : Conflicts :=
  if a.deps = [] then
    if a.rejected then c else { c with acceptable := c.acceptable ++ [a.tx] }
  else { c with pendingAccept := c.pendingAccept ++ [a] }

/-- Modelled from the spec: one acceptor's reaction to `Fulfill id`:
drop the dependency; when none remain the transaction becomes
acceptable (unless a dependency was previously abandoned). -/
def fulfillOne (id : Nat) (a : Acceptor) : Option Acceptor × Option CTx :=
  if id ∈ a.deps then
    let a' : Acceptor := ⟨a.tx, removeId a.deps id, a.rejected⟩
    if a'.deps = [] then (none, if a'.rejected then none else some a'.tx)
    else (some a', none)
  else (some a, none)

/-- Modelled from the spec: `events.Blocker.Fulfill`. -/
def blockerFulfill (c : Conflicts) (id : Nat) : Conflicts :=
  let results := c.pendingAccept.map (fulfillOne id)
  { c with pendingAccept := results.filterMap Prod.fst,
           acceptable := c.acceptable ++ results.filterMap Prod.snd }

/-- Modelled from the spec: `events.Blocker.Abandon` — an acceptor whose
dependency will never be accepted is marked rejected and never fires. -/
def blockerAbandon (c : Conflicts) (id : Nat) : Conflicts :=
  { c with pendingAccept := c.pendingAccept.map (fun a =>
      if id ∈ a.deps then ⟨a.tx, removeId a.deps id, true⟩ else a) }

/-- `Conflicts.Add` (`part_005`).  Returns the mutated state and whether
the invalid-transaction-type error was reported; on that error the state
is returned untouched, as the Go method returns before any mutation. -/
def Conflicts.Add (c : Conflicts) (status : Nat → Status) (arg : TxArg) :
    Conflicts × Bool :=
  match arg with
  | .notTx _ => (c, true)
  | .tx t =>
    let txID := t.txid
    let c1 := { c with txs := fun i => if i = txID then some t else c.txs i }
    let pb := addIds (c1.precludedBy txID) t.precludedBy
    let c2 := { c1 with precludedBy := fun i => if i = txID then pb else c1.precludedBy i }
    let c3 := { c2 with precludes := fun i =>
      if i ∈ pb then addId (c2.precludes i) txID else c2.precludes i }
    let tp := addIds (c3.precludes txID) t.precludes
    let c4 := { c3 with precludes := fun i => if i = txID then tp else c3.precludes i }
    let c5 := { c4 with precludedBy := fun i =>
      if i ∈ tp then addId (c4.precludedBy i) txID else c4.precludedBy i }
    let c6 := { c5 with dependents := fun i =>
      if i ∈ t.deps ∧ status i ≠ Status.Accepted then addId (c5.dependents i) txID else c5.dependents i }
    (c6, false)

/-- `Conflicts.IsVirtuous` (`part_005`): false iff a processing tx
precludes the given tx; errors exactly on a non-`Tx` argument. -/
def Conflicts.IsVirtuous (c : Conflicts) (arg : TxArg) : Bool × Bool :=
  match arg with
  | .notTx _ => (false, true)
  | .tx t =>
    ((c.precludedBy t.txid).all (fun p => (c.txs p).isNone), false)

/-- `Conflicts.PrecludedBy` (`part_005`): the processing txs that preclude
the given tx.  (Go map iteration order is unspecified; the model iterates
IDs in increasing order.) -/
def Conflicts.PrecludedBy (c : Conflicts) (arg : TxArg) : List CTx × Bool :=
  match arg with
  | .notTx _ => ([], true)
  | .tx t =>
    (((c.precludedBy t.txid).filterMap (fun p => c.txs p)), false)

/-- `Conflicts.Precludes` (`part_005`).  Note: the Go body iterates
`c.precludedBy[tx.ID()]`, exactly as `PrecludedBy` does, despite its doc
comment; the model reproduces the source. -/
def Conflicts.Precludes (c : Conflicts) (arg : TxArg) : List CTx × Bool :=
  match arg with
  | .notTx _ => ([], true)
  | .tx t =>
    (((c.precludedBy t.txid).filterMap (fun p => c.txs p)), false)

/-- `Conflicts.Accept` (`part_005`): conditionally accept `txID`,
registering an acceptor on its unaccepted dependencies. -/
def Conflicts.Accept (c : Conflicts) (status : Nat → Status) (txID : Nat) : Conflicts :=
  match c.txs txID with
  | none => c
  | some tx =>
    let deps := tx.deps.filter (fun d => status d != Status.Accepted)
    blockerRegister c ⟨tx, deps, false⟩

/-- The IDs collected by the `isProcessing && !rejectableIDs.Contains`
guard of either `Updateable` loop, iterating the set in its list
order. -/
def newRejectIds (c : Conflicts) (source : List Nat) : List Nat :=
  source.filter (fun p => (c.txs p).isSome && !(decide (p ∈ c.rejectableIDs)))

/-- One iteration of the first (`acceptable`) loop of
`Conflicts.Updateable`: mark as rejectable each still-processing tx that
the accepted tx precludes, delete the accepted tx from every map, and
fulfill the acceptors waiting on it. -/
def updAccStep (c : Conflicts) (tx : CTx) : Conflicts :=
  let txID := tx.txid
  let nr := newRejectIds c (c.precludes txID)
  let c1 := { c with
    rejectable := c.rejectable ++ nr.filterMap (fun p => c.txs p),
    rejectableIDs := addIds c.rejectableIDs nr }
  let c2 := { c1 with
    txs := fun i => if i = txID then none else c1.txs i,
    precludes := fun i => if i = txID then [] else if i ∈ c1.precludedBy txID then removeId (c1.precludes i) txID else c1.precludes i,
    dependents := fun i => if i = txID then [] else c1.dependents i,
    precludedBy := fun i => if i = txID then [] else c1.precludedBy i }
  blockerFulfill c2 txID

/-- One iteration of the second (`rejectable`) loop of
`Conflicts.Updateable`: mark as rejectable each still-processing
dependent of the rejected tx, delete the rejected tx from every map, and
abandon the acceptors waiting on it. -/
def updRejStep (c : Conflicts) (tx : CTx) : Conflicts :=
  let txID := tx.txid
  let nr := newRejectIds c (c.dependents txID)
  let c1 := { c with
    rejectable := c.rejectable ++ nr.filterMap (fun p => c.txs p),
    rejectableIDs := addIds c.rejectableIDs nr,
    dependents := fun i => if i = txID then [] else c.dependents i }
  let c2 := { c1 with
    txs := fun i => if i = txID then none else c1.txs i,
    precludes := fun i => if i = txID then [] else if i ∈ c1.precludedBy txID then removeId (c1.precludes i) txID else c1.precludes i,
    precludedBy := fun i => if i = txID then [] else c1.precludedBy i }
  blockerAbandon c2 txID

/-- `Conflicts.Updateable` (`part_005`): drain the acceptable snapshot,
marking direct preclusions rejectable and fulfilling dependents; then
drain the rejectable snapshot (taken after the first loop), queueing
still-processing dependents of rejected txs into the manager's
`rejectable` list for the next call; return both snapshots. -/
def Conflicts.Updateable (c : Conflicts) : Conflicts × List CTx × List CTx :=
  let acceptable := c.acceptable
  let c1 := { c with acceptable := [] }
  let c2 := acceptable.foldl updAccStep c1
  let rejectable := c2.rejectable
  let c3 := { c2 with rejectable := [], rejectableIDs := [] }
  let c4 := rejectable.foldl updRejStep c3
  (c4, acceptable, rejectable)

/-- The everything-is-processing status world used by the concrete
conflict-manager traces. -/
def stP : Nat → Status := fun _ => Status.Processing

/-- Concrete trace: T1 precludes T2 (via T2's `PrecludedBy`), T3 depends
on T2. -/
def cT1 : CTx := ⟨1, [], [], []⟩

/-- Transaction 2 of the concrete trace, precluded by transaction 1. -/
def cT2 : CTx := ⟨2, [1], [], []⟩

/-- Transaction 3 of the concrete trace, depending on transaction 2. -/
def cT3 : CTx := ⟨3, [], [], [2]⟩

/-- The conflict-manager state after adding T1, T2, T3 and conditionally
accepting T1. -/
def ctrace1 : Conflicts :=
  ((((Conflicts.New.Add stP (.tx cT1)).1.Add stP (.tx cT2)).1.Add stP
    (.tx cT3)).1).Accept stP 1

/-- Transaction 2 of the mutual-preclusion trace: mutually exclusive with
transaction 1. -/
def cM2 : CTx := ⟨2, [1], [1], []⟩

/-- The conflict-manager state after adding two mutually precluding
transactions and conditionally accepting both. -/
def ctraceM : Conflicts :=
  (((Conflicts.New.Add stP (.tx cT1)).1.Add stP (.tx cM2)).1.Accept stP 1).Accept stP 2

/-- Counterexample for C1.  First trace: the call to `Updateable` that
returns T1 acceptable returns exactly [T2] rejectable, although T3 is a
still-processing dependent of the rejectable T2 — the transitive
dependent is not returned by the same call, only by the following one.
Second trace: after conditionally accepting both members of a mutually
precluding pair, a single `Updateable` call delivers both as acceptable,
so "at most one is ever delivered as acceptable" fails (the later one is,
however, also delivered as rejectable). -/
theorem c1_counterexample :
    (ctrace1.Updateable.2.1.map CTx.txid = [1] ∧
     ctrace1.Updateable.2.2.map CTx.txid = [2] ∧
     (ctrace1.txs 3).isSome ∧
     3 ∈ ctrace1.dependents 2 ∧
     3 ∉ ctrace1.Updateable.2.2.map CTx.txid ∧
     ctrace1.Updateable.1.Updateable.2.2.map CTx.txid = [3]) ∧
    (ctraceM.Updateable.2.1.map CTx.txid = [1, 2] ∧
     ctraceM.Updateable.2.2.map CTx.txid = [2]) := by
  decide

theorem addId_mem (l : List Nat) (y x : Nat) : x ∈ addId l y ↔ x ∈ l ∨ x = y := by
  unfold addId
  by_cases h : y ∈ l
  · simp [h]
    intro hx
    subst hx
    exact h
  · simp [h]

theorem addIds_mem (xs l : List Nat) (x : Nat) :
    x ∈ addIds l xs ↔ x ∈ l ∨ x ∈ xs := by
  induction xs generalizing l with
  | nil => simp [addIds]
  | cons y ys ih =>
    show x ∈ addIds (addId l y) ys ↔ _
    rw [ih, addId_mem]
    simp
    tauto

theorem updAccStep_rejectable (s : Conflicts) (t : CTx) :
    (updAccStep s t).rejectable =
      s.rejectable ++ (newRejectIds s (s.precludes t.txid)).filterMap (fun p => s.txs p) := rfl

theorem updAccStep_rejectableIDs (s : Conflicts) (t : CTx) :
    (updAccStep s t).rejectableIDs =
      addIds s.rejectableIDs (newRejectIds s (s.precludes t.txid)) := rfl

theorem updAccStep_txs (s : Conflicts) (t : CTx) :
    (updAccStep s t).txs = fun i => if i = t.txid then none else s.txs i := rfl

theorem updAccStep_precludes (s : Conflicts) (t : CTx) :
    (updAccStep s t).precludes = fun i =>
      if i = t.txid then []
      else if i ∈ s.precludedBy t.txid then removeId (s.precludes i) t.txid
      else s.precludes i := rfl

theorem updAccStep_dependents (s : Conflicts) (t : CTx) :
    (updAccStep s t).dependents = fun i =>
      if i = t.txid then [] else s.dependents i := rfl

theorem updRejStep_rejectable (s : Conflicts) (t : CTx) :
    (updRejStep s t).rejectable =
      s.rejectable ++ (newRejectIds s (s.dependents t.txid)).filterMap (fun p => s.txs p) := rfl

theorem updRejStep_rejectableIDs (s : Conflicts) (t : CTx) :
    (updRejStep s t).rejectableIDs =
      addIds s.rejectableIDs (newRejectIds s (s.dependents t.txid)) := rfl

theorem updRejStep_txs (s : Conflicts) (t : CTx) :
    (updRejStep s t).txs = fun i => if i = t.txid then none else s.txs i := rfl

theorem updRejStep_dependents (s : Conflicts) (t : CTx) :
    (updRejStep s t).dependents = fun i =>
      if i = t.txid then [] else s.dependents i := rfl

theorem fold_rejectable_mono (step : Conflicts → CTx → Conflicts)
    (hstep : ∀ s t, ∃ ex, (step s t).rejectable = s.rejectable ++ ex)
    (l : List CTx) (s : Conflicts) (x : CTx) (hx : x ∈ s.rejectable) :
    x ∈ (l.foldl step s).rejectable := by
  induction l generalizing s with
  | nil => simpa using hx
  | cons t ts ih =>
    apply ih
    obtain ⟨ex, hex⟩ := hstep s t
    rw [hex]
    exact List.mem_append_left _ hx

/-- The state invariants carried through both `Updateable` loops: every
ID in `rejectableIDs` is the ID of a queued rejectable tx, and the
processing map is keyed by transaction ID. -/
def ConflictsInv (s : Conflicts) : Prop :=
  (∀ i, i ∈ s.rejectableIDs → i ∈ s.rejectable.map CTx.txid) ∧
  (∀ i u, s.txs i = some u → u.txid = i)

theorem newRejectIds_txid (s : Conflicts) (src : List Nat) (p : Nat)
    (hp : p ∈ newRejectIds s src)
    (hI2 : ∀ i u, s.txs i = some u → u.txid = i) :
    p ∈ ((newRejectIds s src).filterMap (fun q => s.txs q)).map CTx.txid := by
  have hsome : (s.txs p).isSome := by
    have := List.of_mem_filter hp
    simp at this
    exact this.1
  rcases ho : s.txs p with _ | u
  · rw [ho] at hsome
    simp at hsome
  · have : u ∈ (newRejectIds s src).filterMap (fun q => s.txs q) :=
      List.mem_filterMap.mpr ⟨p, hp, ho⟩
    have ht : u.txid = p := hI2 p u ho
    rw [← ht]
    exact List.mem_map_of_mem _ this

theorem accStep_inv (s : Conflicts) (t : CTx) (h : ConflictsInv s) :
    ConflictsInv (updAccStep s t) := by
  obtain ⟨hI1, hI2⟩ := h
  constructor
  · intro i hi
    rw [updAccStep_rejectableIDs] at hi
    rw [updAccStep_rejectable, List.map_append]
    rcases (addIds_mem _ _ _).mp hi with hold | hnew
    · exact List.mem_append_left _ (hI1 i hold)
    · exact List.mem_append_right _ (newRejectIds_txid s _ i hnew hI2)
  · intro i u hu
    rw [updAccStep_txs] at hu
    by_cases hit : i = t.txid
    · simp [hit] at hu
    · simp [hit] at hu
      exact hI2 i u hu

theorem rejStep_inv (s : Conflicts) (t : CTx) (h : ConflictsInv s) :
    ConflictsInv (updRejStep s t) := by
  obtain ⟨hI1, hI2⟩ := h
  constructor
  · intro i hi
    rw [updRejStep_rejectableIDs] at hi
    rw [updRejStep_rejectable, List.map_append]
    rcases (addIds_mem _ _ _).mp hi with hold | hnew
    · exact List.mem_append_left _ (hI1 i hold)
    · exact List.mem_append_right _ (newRejectIds_txid s _ i hnew hI2)
  · intro i u hu
    rw [updRejStep_txs] at hu
    by_cases hit : i = t.txid
    · simp [hit] at hu
    · simp [hit] at hu
      exact hI2 i u hu

theorem removeId_mem (l : List Nat) (x y : Nat) :
    y ∈ removeId l x ↔ y ∈ l ∧ y ≠ x := by
  simp [removeId]

theorem fold_rejectable_ids_mono (step : Conflicts → CTx → Conflicts)
    (hstep : ∀ s t, ∃ ex, (step s t).rejectable = s.rejectable ++ ex)
    (l : List CTx) (s : Conflicts) (x : Nat)
    (hx : x ∈ s.rejectable.map CTx.txid) :
    x ∈ (l.foldl step s).rejectable.map CTx.txid := by
  obtain ⟨u, hu, hux⟩ := List.mem_map.mp hx
  exact List.mem_map.mpr ⟨u, fold_rejectable_mono step hstep l s u hu, hux⟩

theorem accPhase_marks (l : List CTx) (s : Conflicts) (k : Nat) (hk : k < l.length)
    (p : Nat)
    (hp : p ∈ s.precludes (l.get ⟨k, hk⟩).txid)
    (hproc : (s.txs p).isSome)
    (hne : ∀ j (hj : j < l.length), j < k → (l.get ⟨j, hj⟩).txid ≠ p)
    (hfirst : ∀ j (hj : j < l.length), j < k → (l.get ⟨j, hj⟩).txid ≠ (l.get ⟨k, hk⟩).txid)
    (hinv : ConflictsInv s) :
    p ∈ (l.foldl updAccStep s).rejectable.map CTx.txid := by
  induction l generalizing s k with
  | nil => simp at hk
  | cons t ts ih =>
    cases k with
    | zero =>
      show p ∈ (ts.foldl updAccStep (updAccStep s t)).rejectable.map CTx.txid
      apply fold_rejectable_ids_mono updAccStep (fun s' t' => ⟨_, updAccStep_rejectable s' t'⟩)
      rw [updAccStep_rejectable, List.map_append]
      by_cases hrid : p ∈ s.rejectableIDs
      · exact List.mem_append_left _ (hinv.1 p hrid)
      · refine List.mem_append_right _ (newRejectIds_txid s _ p ?_ hinv.2)
        refine List.mem_filter.mpr ⟨hp, ?_⟩
        simp [hproc, hrid]
    | succ k' =>
      show p ∈ (ts.foldl updAccStep (updAccStep s t)).rejectable.map CTx.txid
      have hk' : k' < ts.length := by simpa using hk
      have htp : t.txid ≠ p := hne 0 (by simp) (by omega)
      have htτ : t.txid ≠ (ts.get ⟨k', hk'⟩).txid :=
        hfirst 0 (by simp) (by omega)
      refine ih (updAccStep s t) k' hk' ?_ ?_ ?_ ?_ (accStep_inv s t hinv)
      · rw [updAccStep_precludes]
        simp only
        rw [if_neg (by exact fun hc => htτ hc.symm)]
        by_cases hmem : (ts.get ⟨k', hk'⟩).txid ∈ s.precludedBy t.txid
        · rw [if_pos hmem]
          exact (removeId_mem _ _ _).mpr ⟨hp, fun hc => htp hc.symm⟩
        · rw [if_neg hmem]
          exact hp
      · rw [updAccStep_txs]
        simp only
        rw [if_neg (by exact fun hc => htp hc.symm)]
        exact hproc
      · intro j hj hlt
        exact hne (j + 1) (by simpa using Nat.succ_lt_succ hj) (by omega)
      · intro j hj hlt
        exact hfirst (j + 1) (by simpa using Nat.succ_lt_succ hj) (by omega)

theorem rejPhase_marks (l : List CTx) (s : Conflicts) (k : Nat) (hk : k < l.length)
    (d : Nat)
    (hd : d ∈ s.dependents (l.get ⟨k, hk⟩).txid)
    (hproc : (s.txs d).isSome)
    (hne : ∀ j (hj : j < l.length), j < k → (l.get ⟨j, hj⟩).txid ≠ d)
    (hfirst : ∀ j (hj : j < l.length), j < k → (l.get ⟨j, hj⟩).txid ≠ (l.get ⟨k, hk⟩).txid)
    (hinv : ConflictsInv s) :
    d ∈ (l.foldl updRejStep s).rejectable.map CTx.txid := by
  induction l generalizing s k with
  | nil => simp at hk
  | cons t ts ih =>
    cases k with
    | zero =>
      show d ∈ (ts.foldl updRejStep (updRejStep s t)).rejectable.map CTx.txid
      apply fold_rejectable_ids_mono updRejStep (fun s' t' => ⟨_, updRejStep_rejectable s' t'⟩)
      rw [updRejStep_rejectable, List.map_append]
      by_cases hrid : d ∈ s.rejectableIDs
      · exact List.mem_append_left _ (hinv.1 d hrid)
      · refine List.mem_append_right _ (newRejectIds_txid s _ d ?_ hinv.2)
        refine List.mem_filter.mpr ⟨hd, ?_⟩
        simp [hproc, hrid]
    | succ k' =>
      show d ∈ (ts.foldl updRejStep (updRejStep s t)).rejectable.map CTx.txid
      have hk' : k' < ts.length := by simpa using hk
      have htd : t.txid ≠ d := hne 0 (by simp) (by omega)
      have htτ : t.txid ≠ (ts.get ⟨k', hk'⟩).txid :=
        hfirst 0 (by simp) (by omega)
      refine ih (updRejStep s t) k' hk' ?_ ?_ ?_ ?_ (rejStep_inv s t hinv)
      · rw [updRejStep_dependents]
        simp only
        rw [if_neg (by exact fun hc => htτ hc.symm)]
        exact hd
      · rw [updRejStep_txs]
        simp only
        rw [if_neg (by exact fun hc => htd hc.symm)]
        exact hproc
      · intro j hj hlt
        exact hne (j + 1) (by simpa using Nat.succ_lt_succ hj) (by omega)
      · intro j hj hlt
        exact hfirst (j + 1) (by simpa using Nat.succ_lt_succ hj) (by omega)

theorem foldAcc_dependents_of_notmem (l : List CTx) (s : Conflicts) (X : Nat)
    (h : ∀ t ∈ l, t.txid ≠ X) :
    (l.foldl updAccStep s).dependents X = s.dependents X := by
  induction l generalizing s with
  | nil => rfl
  | cons t ts ih =>
    show (ts.foldl updAccStep (updAccStep s t)).dependents X = _
    rw [ih _ (fun u hu => h u (by simp [hu]))]
    rw [updAccStep_dependents]
    simp only
    rw [if_neg (fun hc => h t (by simp) hc.symm)]

theorem foldAcc_txs_of_notmem (l : List CTx) (s : Conflicts) (X : Nat)
    (h : ∀ t ∈ l, t.txid ≠ X) :
    (l.foldl updAccStep s).txs X = s.txs X := by
  induction l generalizing s with
  | nil => rfl
  | cons t ts ih =>
    show (ts.foldl updAccStep (updAccStep s t)).txs X = _
    rw [ih _ (fun u hu => h u (by simp [hu]))]
    rw [updAccStep_txs]
    simp only
    rw [if_neg (fun hc => h t (by simp) hc.symm)]

theorem accStep_I2 (s : Conflicts) (t : CTx)
    (h : ∀ i u, s.txs i = some u → u.txid = i) :
    ∀ i u, (updAccStep s t).txs i = some u → u.txid = i := by
  intro i u hu
  rw [updAccStep_txs] at hu
  by_cases hit : i = t.txid
  · simp [hit] at hu
  · simp [hit] at hu
    exact h i u hu

theorem foldAcc_I2 (l : List CTx) (s : Conflicts)
    (h : ∀ i u, s.txs i = some u → u.txid = i) :
    ∀ i u, (l.foldl updAccStep s).txs i = some u → u.txid = i := by
  induction l generalizing s with
  | nil => exact h
  | cons t ts ih =>
    show ∀ i u, (ts.foldl updAccStep (updAccStep s t)).txs i = some u → u.txid = i
    exact ih (updAccStep s t) (accStep_I2 s t h)

theorem exists_first_txid (xs : List CTx) (τ : Nat) (h : τ ∈ xs.map CTx.txid) :
    ∃ k, ∃ hk : k < xs.length, (xs.get ⟨k, hk⟩).txid = τ ∧
      ∀ j (hj : j < xs.length), j < k → (xs.get ⟨j, hj⟩).txid ≠ τ := by
  induction xs with
  | nil => simp at h
  | cons t ts ih =>
    by_cases ht : t.txid = τ
    · exact ⟨0, by simp, ht, fun j hj hlt => absurd hlt (by omega)⟩
    · have hτ : τ ∈ ts.map CTx.txid := by
        simp at h
        rcases h with h | h
        · exact absurd h.symm ht
        · simpa using h
      obtain ⟨k, hk, hget, hmin⟩ := ih hτ
      refine ⟨k + 1, by simpa using Nat.succ_lt_succ hk, hget, ?_⟩
      intro j hj hlt
      cases j with
      | zero => exact ht
      | succ j' => exact hmin j' (by simpa using hj) (by omega)

/-- C1 (amended): for a well-formed conflict-manager state (IDs in
`rejectableIDs` are the IDs of the queued rejectable txs, and the
processing map is keyed consistently), a call to `Updateable` returning
acceptable list `A` and rejectable list `R` satisfies: (i) every
still-processing transaction precluded by a member of `A` is in `R`,
unless it was itself drained as acceptable earlier in the same call;
(ii) a still-processing dependent of a member of `R` is not returned by
this call but is queued and returned by the next call to `Updateable`;
(iii) consequently, if both members of a mutually precluding pair are
delivered acceptable, the one drained later is also delivered rejectable
in the same call. -/
theorem c1_amended (c : Conflicts)
    (W1 : ∀ i, i ∈ c.rejectableIDs → i ∈ c.rejectable.map CTx.txid)
    (W4 : ∀ i u, c.txs i = some u → u.txid = i) :
    (∀ k (hk : k < c.Updateable.2.1.length),
      ∀ p ∈ c.precludes (c.Updateable.2.1.get ⟨k, hk⟩).txid,
      (c.txs p).isSome = true →
      (∀ j (hj : j < c.Updateable.2.1.length), j < k →
        (c.Updateable.2.1.get ⟨j, hj⟩).txid ≠ p) →
      p ∈ c.Updateable.2.2.map CTx.txid) ∧
    (∀ k (hk : k < c.Updateable.2.2.length),
      (∀ j (hj : j < c.Updateable.2.2.length), j < k →
        (c.Updateable.2.2.get ⟨j, hj⟩).txid ≠ (c.Updateable.2.2.get ⟨k, hk⟩).txid) →
      (c.Updateable.2.2.get ⟨k, hk⟩).txid ∉ c.Updateable.2.1.map CTx.txid →
      ∀ d ∈ c.dependents (c.Updateable.2.2.get ⟨k, hk⟩).txid,
        (c.txs d).isSome = true →
        d ∉ c.Updateable.2.1.map CTx.txid →
        d ∉ c.Updateable.2.2.map CTx.txid →
        d ∈ (c.Updateable.1).Updateable.2.2.map CTx.txid) ∧
    (∀ k l (hk : k < c.Updateable.2.1.length) (hl : l < c.Updateable.2.1.length),
      k < l →
      (c.Updateable.2.1.get ⟨l, hl⟩).txid ∈ c.precludes (c.Updateable.2.1.get ⟨k, hk⟩).txid →
      (c.txs (c.Updateable.2.1.get ⟨l, hl⟩).txid).isSome = true →
      (∀ j (hj : j < c.Updateable.2.1.length), j < k →
        (c.Updateable.2.1.get ⟨j, hj⟩).txid ≠ (c.Updateable.2.1.get ⟨l, hl⟩).txid) →
      (c.Updateable.2.1.get ⟨l, hl⟩).txid ∈ c.Updateable.2.2.map CTx.txid) := by
  have hA : c.Updateable.2.1 = c.acceptable := rfl
  have hR : c.Updateable.2.2 =
      (c.acceptable.foldl updAccStep { c with acceptable := [] }).rejectable := rfl
  have hinv0 : ConflictsInv { c with acceptable := [] } := ⟨W1, W4⟩
  have hPartA : ∀ k (hk : k < c.Updateable.2.1.length),
      ∀ p ∈ c.precludes (c.Updateable.2.1.get ⟨k, hk⟩).txid,
      (c.txs p).isSome = true →
      (∀ j (hj : j < c.Updateable.2.1.length), j < k →
        (c.Updateable.2.1.get ⟨j, hj⟩).txid ≠ p) →
      p ∈ c.Updateable.2.2.map CTx.txid := by
    intro k hk p hp hproc hne
    have hk' : k < c.acceptable.length := hk
    have hτmem : (c.acceptable.get ⟨k, hk'⟩).txid ∈ c.acceptable.map CTx.txid :=
      List.mem_map_of_mem _ (c.acceptable.get_mem _ _)
    obtain ⟨k0, hk0, hget0, hmin0⟩ := exists_first_txid c.acceptable _ hτmem
    have hk0k : k0 ≤ k := by
      by_contra habs
      exact hmin0 k hk' (by omega) rfl
    refine accPhase_marks c.acceptable { c with acceptable := [] } k0 hk0 p ?_ hproc ?_ ?_ hinv0
    · show p ∈ c.precludes (c.acceptable.get ⟨k0, hk0⟩).txid
      rw [hget0]
      exact hp
    · intro j hj hlt
      exact hne j hj (by omega)
    · intro j hj hlt
      rw [hget0]
      exact hmin0 j hj (by omega)
  refine ⟨hPartA, ?_, ?_⟩
  · intro k hk hfirst hTnotA d hd hproc hdA hdR
    have hc' : c.Updateable.1 =
        c.Updateable.2.2.foldl updRejStep
          { (c.acceptable.foldl updAccStep { c with acceptable := [] }) with
            rejectable := [], rejectableIDs := [] } := rfl
    have hnext : (c.Updateable.1).Updateable.2.2 =
        ((c.Updateable.1).acceptable.foldl updAccStep
          { (c.Updateable.1) with acceptable := [] }).rejectable := rfl
    have hAids : ∀ t ∈ c.acceptable, t.txid ≠ (c.Updateable.2.2.get ⟨k, hk⟩).txid := by
      intro t ht hc2
      exact hTnotA (by rw [hA]; exact hc2 ▸ List.mem_map_of_mem _ ht)
    have hAidsd : ∀ t ∈ c.acceptable, t.txid ≠ d := by
      intro t ht hc2
      exact hdA (by rw [hA]; exact hc2 ▸ List.mem_map_of_mem _ ht)
    have hmark : d ∈ (c.Updateable.1).rejectable.map CTx.txid := by
      rw [hc']
      refine rejPhase_marks _ _ k hk d ?_ ?_ ?_ hfirst ?_
      · show d ∈ (c.acceptable.foldl updAccStep { c with acceptable := [] }).dependents _
        rw [foldAcc_dependents_of_notmem _ _ _ hAids]
        exact hd
      · show ((c.acceptable.foldl updAccStep { c with acceptable := [] }).txs d).isSome = true
        rw [foldAcc_txs_of_notmem _ _ _ hAidsd]
        exact hproc
      · intro j hj hlt hc2
        exact hdR (hc2 ▸ List.mem_map_of_mem _ (c.Updateable.2.2.get_mem _ _))
      · refine ⟨by simp, ?_⟩
        exact foldAcc_I2 _ _ W4
    rw [hnext]
    exact fold_rejectable_ids_mono updAccStep
      (fun s' t' => ⟨_, updAccStep_rejectable s' t'⟩) _ _ d hmark
  · intro k l hk hl hkl hpre hproc hne
    exact hPartA k hk _ hpre hproc hne

/-- Witness for C1 (amended): applying the theorem to the concrete trace
state, the still-processing transaction 2, precluded by the accepted
transaction 1, is returned in the rejectable list. -/
theorem c1_witness : 2 ∈ ctrace1.Updateable.2.2.map CTx.txid := by
  have hW1 : ∀ i, i ∈ ctrace1.rejectableIDs → i ∈ ctrace1.rejectable.map CTx.txid := by
    intro i hi
    have hnil : ctrace1.rejectableIDs = [] := by decide
    rw [hnil] at hi
    simp at hi
  have hW4 : ∀ i u, ctrace1.txs i = some u → u.txid = i := by
    have htxs : ctrace1.txs = (fun i => if i = 3 then some cT3
        else if i = 2 then some cT2 else if i = 1 then some cT1 else none) := rfl
    intro i u h
    rw [htxs] at h
    by_cases h3 : i = 3
    · subst h3
      simp at h
      rw [← h]
      decide
    · by_cases h2 : i = 2
      · subst h2
        simp at h
        rw [← h]
        decide
      · by_cases h1 : i = 1
        · subst h1
          simp at h
          rw [← h]
          decide
        · simp [h3, h2, h1] at h
  exact (c1_amended ctrace1 hW1 hW4).1 0 (by decide) 2 (by decide) (by decide)
    (fun j hj hlt => absurd hlt (by omega))

/-- C6: for every argument and every manager state, `Add` reports the
invalid-transaction-type error exactly when the argument does not
implement the `Tx` interface, and in that case the state (processing
map, preclusion maps, dependents, pending accepts) is returned
untouched; `IsVirtuous`, `PrecludedBy` and `Precludes` fail on exactly
the same type error and never otherwise.  `Accept` and `Updateable` are
total functions of the state (they return no error by type). -/
theorem c6_invalid_tx_type (c : Conflicts) (status : Nat → Status)
    (id : Nat) (t : CTx) :
    (c.Add status (TxArg.notTx id)).2 = true ∧
    (c.Add status (TxArg.notTx id)).1 = c ∧
    (c.Add status (TxArg.tx t)).2 = false ∧
    (c.IsVirtuous (TxArg.notTx id)).2 = true ∧
    (c.IsVirtuous (TxArg.tx t)).2 = false ∧
    (c.PrecludedBy (TxArg.notTx id)).2 = true ∧
    (c.PrecludedBy (TxArg.tx t)).2 = false ∧
    (c.Precludes (TxArg.notTx id)).2 = true ∧
    (c.Precludes (TxArg.tx t)).2 = false :=
  ⟨rfl, rfl, rfl, rfl, rfl, rfl, rfl, rfl, rfl⟩

/-- The key-prefix constants of the bootstrap job queue
(`prefixed_state.go`): `stackSizeID byte = iota; stackID; jobID;
blockingID`, so 0, 1, 2, 3. -/
def stackSizeID : Nat := 0

/-- Prefix for the job stored at a stack index. -/
def stackID : Nat := stackSizeID + 1

/-- Prefix for a job's bytes, keyed by job ID. -/
def jobPrefixID : Nat := stackID + 1

/-- Prefix for an ID's set of blocking IDs. -/
def blockingID : Nat := jobPrefixID + 1

/-- `stackSize = []byte{stackSizeID}`: the key of the persisted stack
size. -/
def stackSize : List Nat := [stackSizeID]

/-- The key built by `prefixedState.SetStackIndex` / `StackIndex` /
`DeleteStackIndex`: `PackByte(stackID)` then `PackInt(index)`. -/
def stackIndexKey (index : Nat) : List Nat := stackID :: beBytes 4 index

/-- The key built by `prefixedState.SetJob` / `HasJob` / `Job` /
`DeleteJob`: `PackByte(jobID)` then the job ID's 32 bytes. -/
def jobKey (id : List Nat) : List Nat := jobPrefixID :: id

/-- The key built by `prefixedState.AddBlocking` / `DeleteBlocking` /
`Blocking`: `PackByte(blockingID)` then the ID's 32 bytes. -/
def blockingKey (id : List Nat) : List Nat := blockingID :: id

/-- Counterexample for C7: the persisted keys use the prefixes
0x00, 0x01, 0x02 and 0x03 — not 0x10, 0x11, 0x12, 0x13 as claimed. -/
theorem c7_counterexample :
    stackSize = [0x00] ∧ stackSize ≠ [0x10] ∧
    stackIndexKey 5 = [0x01, 0, 0, 0, 5] ∧
    stackIndexKey 5 ≠ 0x11 :: beBytes 4 5 ∧
    jobKey (List.replicate 32 9) = 0x02 :: List.replicate 32 9 ∧
    jobKey (List.replicate 32 9) ≠ 0x12 :: List.replicate 32 9 ∧
    blockingKey (List.replicate 32 9) = 0x03 :: List.replicate 32 9 ∧
    blockingKey (List.replicate 32 9) ≠ 0x13 :: List.replicate 32 9 := by
  refine ⟨rfl, by decide, by decide, by decide, rfl, by decide, rfl, by decide⟩

/-- C7 (amended): the bootstrap job queue persists its state under the
byte key prefixes 0x00 for the stack size, 0x01 followed by a big-endian
u32 index for the job at that stack index, 0x02 followed by the job ID
for the job's bytes, and 0x03 followed by an ID for that ID's set of
blocking IDs; the four key families are pairwise disjoint and the
stack-index keys separate indices that differ modulo 2^32. -/
theorem c7_amended :
    (∀ (index : Nat) (id : List Nat),
      stackSize = [0x00] ∧
      stackIndexKey index = 0x01 :: beBytes 4 index ∧
      (stackIndexKey index).length = 5 ∧
      jobKey id = 0x02 :: id ∧
      blockingKey id = 0x03 :: id ∧
      stackSize ≠ stackIndexKey index ∧
      stackSize ≠ jobKey id ∧
      stackSize ≠ blockingKey id ∧
      stackIndexKey index ≠ jobKey id ∧
      stackIndexKey index ≠ blockingKey id ∧
      jobKey id ≠ blockingKey id) ∧
    (∀ i1 i2 : Nat, i1 % 2 ^ 32 ≠ i2 % 2 ^ 32 →
      stackIndexKey i1 ≠ stackIndexKey i2) := by
  constructor
  · intro index id
    refine ⟨rfl, rfl, by simp [stackIndexKey, beBytes_length], rfl, rfl,
      ?_, ?_, ?_, ?_, ?_, ?_⟩
    · intro h
      have := congrArg List.length h
      simp [stackSize, stackIndexKey, beBytes_length] at this
    · intro h
      exact absurd (List.head_eq_of_cons_eq h) (by decide)
    · intro h
      exact absurd (List.head_eq_of_cons_eq h) (by decide)
    · intro h
      exact absurd (List.head_eq_of_cons_eq h) (by decide)
    · intro h
      exact absurd (List.head_eq_of_cons_eq h) (by decide)
    · intro h
      exact absurd (List.head_eq_of_cons_eq h) (by decide)
  · intro i1 i2 hne h
    apply hne
    have hb : beBytes 4 i1 = beBytes 4 i2 := List.tail_eq_of_cons_eq h
    have h1 := fromBytes_beBytes 4 i1
    have h2 := fromBytes_beBytes 4 i2
    rw [hb, h2] at h1
    simpa [show (256 : Nat) ^ 4 = 2 ^ 32 by norm_num] using h1.symm

/-- Witness for C7 (amended): stack-index keys for indices 5 and 6
differ. -/
theorem c7_witness : stackIndexKey 5 ≠ stackIndexKey 6 :=
  c7_amended.2 5 6 (by decide)

/-- A value held by `state.dbCache` for a vertex ID: the untyped `nil`
stored by `s.dbCache.Put(id, nil)`, a parsed `*innerVertex`, or a value
of some unexpected type. -/
inductive CVal where
  | cnil
  | cvtx (v : ParsedVtx)
  | cother
deriving Repr, DecidableEq

/-- The outcome of `s.db.Get`: bytes, `database.ErrNotFound`, or another
database error. -/
inductive DBRes where
  | ok (bytes : List Nat)
  | notFound
  | dbErr
deriving Repr, DecidableEq

/-- The `state` struct of `state.go`, restricted to what `state.Vertex`
touches: the cache (`found` modelled as `some`), the database, and
`s.serializer.parseVertex`. -/
structure VState where
  dbCache : Nat → Option CVal
  db : Nat → DBRes
  serializerParse : List Nat → Option ParsedVtx

/-- `s.dbCache.Put(id, v)`. -/
def VState.put (s : VState) (id : Nat) (v : CVal) : VState :=
  { s with dbCache := fun i => if i = id then some v else s.dbCache i }

/-- `state.Vertex` (state.go lines 25–51). Returns the result, the new
state, and whether `s.db.Get` was consulted. The cached untyped `nil`
fails the `vtxIntf.(*innerVertex)` type assertion, so only a cached
`*innerVertex` returns early; every other branch falls through to the
database read, and every failing branch caches `nil` and returns `nil`. -/
def VState.Vertex (s : VState) (id : Nat) :
    Option ParsedVtx × VState × Bool :=
  match s.dbCache id with
  | some (CVal.cvtx v) => (some v, s, false)
  | _ =>
    match s.db id with
    | DBRes.ok bytes =>
      match s.serializerParse bytes with
      | some v => (some v, s.put id (CVal.cvtx v), true)
      | none => (none, s.put id CVal.cnil, true)
    | _ => (none, s.put id CVal.cnil, true)

/-- A concrete state with an empty cache and an empty database. -/
def c8s0 : VState :=
  ⟨fun _ => none, fun _ => DBRes.notFound, fun _ => none⟩

/-- Counterexample for C8: looking up an absent ID returns a miss and
records `nil` in the cache, but the immediately repeated lookup of the
same ID consults the database again (the third component is `true` both
times), because the cached untyped `nil` fails the `*innerVertex` type
assertion instead of short-circuiting. -/
theorem c8_counterexample :
    (c8s0.Vertex 7).1 = none ∧
    (c8s0.Vertex 7).2.1.dbCache 7 = some CVal.cnil ∧
    (c8s0.Vertex 7).2.2 = true ∧
    ((c8s0.Vertex 7).2.1.Vertex 7).2.2 = true :=
  ⟨rfl, rfl, rfl, rfl⟩

/-- If the cache does not hold a parsed vertex for `id`, `state.Vertex`
falls through to the database read. -/
theorem VState.Vertex_nocache (s : VState) (id : Nat)
    (hnv : ∀ v, s.dbCache id ≠ some (CVal.cvtx v)) :
    s.Vertex id = (match s.db id with
      | DBRes.ok bytes =>
        match s.serializerParse bytes with
        | some v => (some v, s.put id (CVal.cvtx v), true)
        | none => (none, s.put id CVal.cnil, true)
      | _ => (none, s.put id CVal.cnil, true)) := by
  unfold VState.Vertex
  cases hdc : s.dbCache id with
  | none => rfl
  | some c =>
    cases c with
    | cnil => rfl
    | cvtx v => exact absurd hdc (hnv v)
    | cother => rfl

/-- If the cache does not hold a parsed vertex for `id`, `state.Vertex`
consults the database. -/
theorem VState.Vertex_dbAccessed (s : VState) (id : Nat)
    (hnv : ∀ v, s.dbCache id ≠ some (CVal.cvtx v)) :
    (s.Vertex id).2.2 = true := by
  rw [VState.Vertex_nocache s id hnv]
  split
  all_goals first | rfl | (split <;> rfl)

/-- Every miss of `state.Vertex` records the untyped `nil` in the
cache. -/
theorem VState.Vertex_miss_cached (s : VState) (id : Nat)
    (hnv : ∀ v, s.dbCache id ≠ some (CVal.cvtx v))
    (hmiss : (s.Vertex id).1 = none) :
    (s.Vertex id).2.1.dbCache id = some CVal.cnil := by
  rw [VState.Vertex_nocache s id hnv] at hmiss ⊢
  revert hmiss
  split
  · split
    · intro hmiss; simp at hmiss
    · intro hmiss; simp [VState.put]
  all_goals intro hmiss; simp [VState.put]

/-- C8 (amended): the vertex store's lookup returns a miss (`nil`) and
never propagates an error whenever the key is absent, the database read
fails, or the persisted bytes fail to parse, and in every such case the
miss is recorded in the cache as an untyped `nil`; however, the recorded
`nil` does not short-circuit: a repeated lookup after any miss consults
the database again. Only a cached parsed vertex returns without touching
the database. -/
theorem c8_amended (s : VState) (id : Nat) :
    (∀ v, s.dbCache id = some (CVal.cvtx v) →
      s.Vertex id = (some v, s, false)) ∧
    ((∀ v, s.dbCache id ≠ some (CVal.cvtx v)) →
      (s.Vertex id).2.2 = true ∧
      ((∃ b v, s.db id = DBRes.ok b ∧ s.serializerParse b = some v ∧
          s.Vertex id = (some v, s.put id (CVal.cvtx v), true)) ∨
        ((s.Vertex id).1 = none ∧
          (s.Vertex id).2.1.dbCache id = some CVal.cnil))) ∧
    ((s.Vertex id).1 = none →
      ((s.Vertex id).2.1.Vertex id).2.2 = true) := by
  refine ⟨?_, ?_, ?_⟩
  · intro v hv
    unfold VState.Vertex
    rw [hv]
  · intro hnv
    refine ⟨VState.Vertex_dbAccessed s id hnv, ?_⟩
    rw [VState.Vertex_nocache s id hnv]
    split
    · rename_i bytes heq
      split
      · rename_i v hp
        exact Or.inl ⟨bytes, v, heq, hp, rfl⟩
      · exact Or.inr ⟨rfl, by simp [VState.put]⟩
    · exact Or.inr ⟨rfl, by simp [VState.put]⟩
  · intro hmiss
    by_cases hc : ∀ v, s.dbCache id ≠ some (CVal.cvtx v)
    · have hcached := VState.Vertex_miss_cached s id hc hmiss
      apply VState.Vertex_dbAccessed
      intro v hv
      rw [hcached] at hv
      cases hv
    · push_neg at hc
      obtain ⟨v, hv⟩ := hc
      have hV : s.Vertex id = (some v, s, false) := by
        unfold VState.Vertex; rw [hv]
      rw [hV] at hmiss
      cases hmiss

/-- Witness for C8 (amended): applied to the concrete empty-cache,
empty-database state at ID 7, the cache holds no vertex, the lookup
consults the database, returns a miss with `nil` cached, and the
repeated lookup consults the database again. -/
theorem c8_witness :
    (c8s0.Vertex 7).2.2 = true ∧
    ((c8s0.Vertex 7).1 = none ∧
      (c8s0.Vertex 7).2.1.dbCache 7 = some CVal.cnil) ∧
    ((c8s0.Vertex 7).2.1.Vertex 7).2.2 = true := by
  have h := c8_amended c8s0 7
  have h2 := h.2.1 (fun v hv => by simp [c8s0] at hv)
  refine ⟨h2.1, ?_, h.2.2 rfl⟩
  rcases h2.2 with ⟨b, v, hdb, _⟩ | hmiss
  · exact absurd hdb (by simp [c8s0])
  · exact hmiss

/-- Modelled from the spec: one endpoint's view of a peer node ID —
whether a connection to that peer is currently held, its session ID, and
the `nextSessionID` counter the tests inspect. -/
structure Endpoint where
  connectedTo : Bool
  session : Nat
  nextSessionID : Nat
deriving Repr, DecidableEq

/-- Modelled from the spec: a reconnection attempt by `i` towards `r`,
claiming session ID `i.nextSessionID`. If `r` already holds a connection
whose session is at least the claimed ID, the attempt is refused and
both ends are unchanged; otherwise the existing connection is dropped,
the new one is adopted at the claimed session, and both ends advance
their `nextSessionID` counters past the claimed value. The third
component reports whether the new connection was adopted. -/
def reconnect (i r : Endpoint) : Endpoint × Endpoint × Bool :=
  if r.connectedTo = true ∧ i.nextSessionID ≤ r.session then
    (i, r, false)
  else
    (⟨true, i.nextSessionID, i.nextSessionID + 1⟩,
     ⟨true, i.nextSessionID, i.nextSessionID + 1⟩, true)

/-- C9: when a connection attempt arrives for a node ID with an existing
connection, a claimed session ID strictly greater than the current one
drops the existing connection and adopts the new one, with both ends'
next-session-id counters advancing past the claimed value; a claimed
session ID less than or equal to the current one is refused and the
existing connection kept, with both ends unchanged. -/
theorem c9_session_reconnect (i r : Endpoint)
    (hconn : r.connectedTo = true) :
    (r.session < i.nextSessionID →
      reconnect i r = (⟨true, i.nextSessionID, i.nextSessionID + 1⟩,
        ⟨true, i.nextSessionID, i.nextSessionID + 1⟩, true) ∧
      r.session < (reconnect i r).2.1.session ∧
      i.nextSessionID < (reconnect i r).1.nextSessionID ∧
      i.nextSessionID < (reconnect i r).2.1.nextSessionID) ∧
    (i.nextSessionID ≤ r.session →
      reconnect i r = (i, r, false)) := by
  constructor
  · intro h
    have hno : ¬(r.connectedTo = true ∧ i.nextSessionID ≤ r.session) := by
      intro hx; omega
    have hEq : reconnect i r =
        (⟨true, i.nextSessionID, i.nextSessionID + 1⟩,
         ⟨true, i.nextSessionID, i.nextSessionID + 1⟩, true) := by
      rw [reconnect, if_neg hno]
    refine ⟨hEq, ?_, ?_, ?_⟩ <;> rw [hEq] <;> simp <;> omega
  · intro h
    rw [reconnect, if_pos ⟨hconn, h⟩]

/-- Witness for C9: a clone claiming session 100 against a connection at
session 1 is adopted and both counters become 101 (as in
`TestReconnectHigherSessionID`); a clone claiming session 99 against a
connection at session 100 is refused and both ends are unchanged (as in
`TestReconnectLowerSessionID`). -/
theorem c9_witness :
    reconnect ⟨false, 0, 100⟩ ⟨true, 1, 2⟩ =
      (⟨true, 100, 101⟩, ⟨true, 100, 101⟩, true) ∧
    reconnect ⟨false, 0, 99⟩ ⟨true, 100, 101⟩ =
      (⟨false, 0, 99⟩, ⟨true, 100, 101⟩, false) :=
  ⟨((c9_session_reconnect ⟨false, 0, 100⟩ ⟨true, 1, 2⟩ rfl).1
      (by decide)).1,
   (c9_session_reconnect ⟨false, 0, 99⟩ ⟨true, 100, 101⟩ rfl).2
      (by decide)⟩

/-- The state touched by `vertex.Accept` / `vertex.Reject` /
`manager.saveEdge`: the per-vertex status, the manager's in-memory
`edge` set, and the edge list persisted in the database under
`edgeDBKey` (`ids.Empty.Bytes()`, a fixed well-known key). -/
structure EdgeState where
  status : Nat → Status
  edge : List Nat
  persisted : List Nat

/-- `vertex.Accept` (part_001 lines 115–127): set the status to
Accepted, remove each parent from `mgr.edge`, add the vertex itself,
then `saveEdge` persists the edge under the fixed key. -/
def vertexAccept (parents : Nat → List Nat) (s : EdgeState) (v : Nat) :
    EdgeState :=
  { status := fun i => if i = v then Status.Accepted else s.status i
    edge := addId ((parents v).foldl removeId s.edge) v
    persisted := addId ((parents v).foldl removeId s.edge) v }

/-- `vertex.Reject` (part_001 lines 86–91): set the status to Rejected;
the edge and the database are untouched. -/
def vertexReject (s : EdgeState) (v : Nat) : EdgeState :=
  { s with status := fun i => if i = v then Status.Rejected else s.status i }

/-- The accepted-frontier invariant over a finite universe of vertex
IDs: the persisted record equals the in-memory edge, the edge lies in
the universe, and an ID is in the edge exactly when it is accepted and
none of its children (vertices listing it as a parent) is accepted. -/
def EdgeInv (univ : List Nat) (parents : Nat → List Nat)
    (s : EdgeState) : Prop :=
  s.persisted = s.edge ∧
  (∀ u ∈ s.edge, u ∈ univ) ∧
  ∀ u ∈ univ, (u ∈ s.edge ↔ (s.status u = Status.Accepted ∧
    ∀ c ∈ univ, u ∈ parents c → s.status c ≠ Status.Accepted))

theorem foldl_removeId_mem (ps : List Nat) (e : List Nat) (u : Nat) :
    u ∈ ps.foldl removeId e ↔ u ∈ e ∧ u ∉ ps := by
  induction ps generalizing e with
  | nil => simp
  | cons p rest ih =>
    simp only [List.foldl_cons]
    rw [ih, removeId_mem]
    simp only [List.mem_cons]
    tauto

/-- C5: the accepted-frontier invariant — persisted record = edge = the
set of accepted vertices with no accepted children — is preserved by
every vertex acceptance and every vertex rejection. Accepting a
processing vertex with no accepted children and no self-loop removes its
parents from the edge, adds the vertex, and persists the result;
rejecting a vertex that is not accepted changes no edge state. -/
theorem c5_edge_frontier (univ : List Nat) (parents : Nat → List Nat)
    (s : EdgeState) (v : Nat) (hinv : EdgeInv univ parents s) :
    (v ∈ univ → s.status v = Status.Processing →
      (∀ c ∈ univ, v ∈ parents c → s.status c ≠ Status.Accepted) →
      v ∉ parents v →
      EdgeInv univ parents (vertexAccept parents s v)) ∧
    (s.status v ≠ Status.Accepted →
      EdgeInv univ parents (vertexReject s v)) := by
  obtain ⟨hpe, hsub, hmain⟩ := hinv
  constructor
  · intro hvU hvP hnoch hnoself
    refine ⟨rfl, ?_, ?_⟩
    · intro u hu
      rw [vertexAccept] at hu
      rcases (addId_mem _ _ _).1 hu with hu' | hu'
      · exact hsub u ((foldl_removeId_mem _ _ _).1 hu').1
      · subst hu'; exact hvU
    · intro u huU
      rw [vertexAccept]
      constructor
      · intro hu
        rcases (addId_mem _ _ _).1 hu with hu' | hu'
        · obtain ⟨hue, hunp⟩ := (foldl_removeId_mem _ _ _).1 hu'
          obtain ⟨hacc, hch⟩ := (hmain u huU).1 hue
          have huv : u ≠ v := by
            intro h; rw [h, hvP] at hacc; cases hacc
          refine ⟨by simp [huv, hacc], ?_⟩
          intro c hcU hpc
          by_cases hcv : c = v
          · subst hcv; exact absurd hpc hunp
          · simpa [hcv] using hch c hcU hpc
        · refine ⟨by simp [hu'], ?_⟩
          intro c hcU hpc
          rw [hu'] at hpc
          by_cases hcv : c = v
          · rw [hcv] at hpc
            exact absurd hpc hnoself
          · simpa [hcv] using hnoch c hcU hpc
      · intro ⟨hacc, hch⟩
        by_cases huv : u = v
        · subst huv; exact (addId_mem _ _ _).2 (Or.inr rfl)
        · simp only [if_neg huv] at hacc
          have hunp : u ∉ parents v := by
            intro hup
            have := hch v hvU hup
            simp at this
          have hold : u ∈ s.edge := by
            refine (hmain u huU).2 ⟨hacc, ?_⟩
            intro c hcU hpc
            by_cases hcv : c = v
            · subst hcv; rw [hvP]; intro h; cases h
            · have := hch c hcU hpc
              simpa [hcv] using this
          exact (addId_mem _ _ _).2
            (Or.inl ((foldl_removeId_mem _ _ _).2 ⟨hold, hunp⟩))
  · intro hvNA
    refine ⟨hpe, hsub, ?_⟩
    intro u huU
    rw [vertexReject]
    constructor
    · intro hu
      obtain ⟨hacc, hch⟩ := (hmain u huU).1 hu
      have huv : u ≠ v := by
        intro h; rw [h] at hacc; exact hvNA hacc
      refine ⟨by simp [huv, hacc], ?_⟩
      intro c hcU hpc
      by_cases hcv : c = v
      · subst hcv; simp
      · simpa [hcv] using hch c hcU hpc
    · intro ⟨hacc, hch⟩
      by_cases huv : u = v
      · rw [huv] at hacc; simp at hacc
      · simp only [if_neg huv] at hacc
        refine (hmain u huU).2 ⟨hacc, ?_⟩
        intro c hcU hpc
        by_cases hcv : c = v
        · subst hcv; exact hvNA
        · simpa [hcv] using hch c hcU hpc

/-- A two-vertex universe: vertex 2 has parent 1. -/
def c5parents : Nat → List Nat := fun i => if i = 2 then [1] else []

/-- All-processing initial state with an empty edge. -/
def c5s0 : EdgeState := ⟨fun _ => Status.Processing, [], []⟩

/-- Witness for C5: in the two-vertex universe, the invariant holds
initially and is preserved by accepting vertex 1. -/
theorem c5_witness :
    EdgeInv [1, 2] c5parents (vertexAccept c5parents c5s0 1) := by
  have h0 : EdgeInv [1, 2] c5parents c5s0 := by
    refine ⟨rfl, by simp [c5s0], ?_⟩
    intro u huU
    simp [c5s0]
  exact (c5_edge_frontier [1, 2] c5parents c5s0 1 h0).1
    (by decide) rfl (by intro c hc hp; simp [c5s0]) (by simp [c5parents])

/-- A snowstorm transaction as seen by `TopologicalSort` (part_007): an
ID and the IDs of its dependencies (`Tx.ID()` / `Tx.Dependencies()`). -/
structure STx where
  id : Nat
  deps : List Nat
deriving Repr, DecidableEq

/-- The `depsInTxs` set built for each transaction: the dependencies
that are contained in `txIDs`, collected into an `ids.Set`. -/
def depsInTxs (txIDs : List Nat) (t : STx) : List Nat :=
  addIds [] (t.deps.filter (fun d => txIDs.contains d))

/-- The first loop of `TopologicalSort`: transactions whose in-list
dependency set is empty go to `noDeps` (in list order); the others are
recorded in `txToDeps` with their in-list dependency sets, here kept as
an association list in insertion order together with the transaction
itself (`txIDToTx` lookup). -/
def initPass (txIDs : List Nat) : List STx → List STx × List (STx × List Nat)
  | [] => ([], [])
  | t :: rest =>
    if depsInTxs txIDs t = [] then
      (t :: (initPass txIDs rest).1, (initPass txIDs rest).2)
    else
      ((initPass txIDs rest).1, (t, depsInTxs txIDs t) :: (initPass txIDs rest).2)

/-- One pass over `txToDeps` after popping a transaction with ID `i`:
every entry drops `i` from its dependency set (`deps.Remove(tx.ID())`);
entries whose set becomes empty are freed (appended to `noDeps`) and
deleted, the others are kept with the shrunk set. -/
def sortStep (i : Nat) : List (STx × List Nat) → List STx × List (STx × List Nat)
  | [] => ([], [])
  | (u, ds) :: rest =>
    if removeId ds i = [] then
      (u :: (sortStep i rest).1, (sortStep i rest).2)
    else
      ((sortStep i rest).1, (u, removeId ds i) :: (sortStep i rest).2)

/-- The main loop of `TopologicalSort`: pop the front of `noDeps`,
append it to `sorted`, free the newly dependency-less entries. The Go
loop terminates because `len(noDeps) + len(txToDeps)` strictly
decreases; the fuel argument makes that measure explicit. -/
def sortLoop : Nat → List STx → List STx → List (STx × List Nat) → List STx
  | _, sorted, [], _ => sorted
  | 0, sorted, _ :: _, _ => sorted
  | fuel + 1, sorted, tx :: rest, pending =>
    sortLoop fuel (sorted ++ [tx])
      (rest ++ (sortStep tx.id pending).1)
      (sortStep tx.id pending).2

/-- `TopologicalSort` (part_007 lines 51–102, Kahn's algorithm): run the
loop; if the sorted output does not account for every transaction there
is a dependency cycle and an error is returned (`none`). -/
def TopologicalSort (txs : List STx) : Option (List STx) :=
  if (sortLoop txs.length [] (initPass (txs.map STx.id) txs).1
        (initPass (txs.map STx.id) txs).2).length = txs.length then
    some (sortLoop txs.length [] (initPass (txs.map STx.id) txs).1
        (initPass (txs.map STx.id) txs).2)
  else none

/-- The claimed output ordering, following the spec's words: scanning
the output left to right, every in-list dependency of each transaction
has already been seen. -/
def orderedFrom (txIDs : List Nat) (seen : List Nat) : List STx → Bool
  | [] => true
  | u :: rest =>
    (depsInTxs txIDs u).all (fun d => seen.contains d) &&
    orderedFrom txIDs (seen ++ [u.id]) rest

theorem depsInTxs_mem (txIDs : List Nat) (t : STx) (d : Nat) :
    d ∈ depsInTxs txIDs t ↔ d ∈ t.deps ∧ d ∈ txIDs := by
  rw [depsInTxs, addIds_mem]
  simp [List.mem_filter]

theorem removeId_eq_nil_mem (ds : List Nat) (i d : Nat)
    (h : removeId ds i = []) (hd : d ∈ ds) : d = i := by
  by_contra hne
  have : d ∈ removeId ds i := (removeId_mem ds i d).2 ⟨hd, hne⟩
  rw [h] at this
  cases this

theorem sortStep_length (i : Nat) (p : List (STx × List Nat)) :
    (sortStep i p).1.length + (sortStep i p).2.length = p.length := by
  induction p with
  | nil => rfl
  | cons e rest ih =>
    obtain ⟨u, ds⟩ := e
    rw [sortStep]
    by_cases h : removeId ds i = [] <;> simp [h] <;> omega

theorem sortStep_perm (i : Nat) (p : List (STx × List Nat)) :
    ((sortStep i p).1 ++ (sortStep i p).2.map Prod.fst).Perm
      (p.map Prod.fst) := by
  induction p with
  | nil => rfl
  | cons e rest ih =>
    obtain ⟨u, ds⟩ := e
    rw [sortStep]
    by_cases h : removeId ds i = []
    · rw [if_pos h]
      simpa using ih.cons u
    · rw [if_neg h]
      refine List.Perm.trans ?_ (ih.cons u)
      simpa using List.perm_middle

theorem sortStep_freed_mem (i : Nat) (p : List (STx × List Nat)) (u : STx) :
    u ∈ (sortStep i p).1 ↔ ∃ ds, (u, ds) ∈ p ∧ removeId ds i = [] := by
  induction p with
  | nil => simp [sortStep]
  | cons e rest ih =>
    obtain ⟨w, ds⟩ := e
    rw [sortStep]
    by_cases h : removeId ds i = []
    · rw [if_pos h]
      simp only [List.mem_cons, ih]
      constructor
      · rintro (rfl | ⟨ds', hm, hn⟩)
        · exact ⟨ds, Or.inl rfl, h⟩
        · exact ⟨ds', Or.inr hm, hn⟩
      · rintro ⟨ds', hm | hm, hn⟩
        · cases hm with
          | refl => exact Or.inl rfl
        · exact Or.inr ⟨ds', hm, hn⟩
    · rw [if_neg h]
      rw [ih]
      constructor
      · rintro ⟨ds', hm, hn⟩
        exact ⟨ds', List.mem_cons_of_mem _ hm, hn⟩
      · rintro ⟨ds', hm, hn⟩
        rcases List.mem_cons.1 hm with heq | hm'
        · cases heq with
          | refl => exact absurd hn h
        · exact ⟨ds', hm', hn⟩

theorem sortStep_keep_mem (i : Nat) (p : List (STx × List Nat))
    (u : STx) (ds' : List Nat) :
    (u, ds') ∈ (sortStep i p).2 ↔
      ∃ ds, (u, ds) ∈ p ∧ ds' = removeId ds i ∧ removeId ds i ≠ [] := by
  induction p with
  | nil => simp [sortStep]
  | cons e rest ih =>
    obtain ⟨w, ds⟩ := e
    rw [sortStep]
    by_cases h : removeId ds i = []
    · rw [if_pos h]
      rw [ih]
      constructor
      · rintro ⟨ds₀, hm, he, hn⟩
        exact ⟨ds₀, List.mem_cons_of_mem _ hm, he, hn⟩
      · rintro ⟨ds₀, hm, he, hn⟩
        rcases List.mem_cons.1 hm with heq | hm'
        · cases heq with
          | refl => exact absurd h hn
        · exact ⟨ds₀, hm', he, hn⟩
    · rw [if_neg h]
      simp only [List.mem_cons, ih]
      constructor
      · rintro (heq | ⟨ds₀, hm, he, hn⟩)
        · cases heq with
          | refl => exact ⟨ds, Or.inl rfl, rfl, h⟩
        · exact ⟨ds₀, Or.inr hm, he, hn⟩
      · rintro ⟨ds₀, hm | hm, he, hn⟩
        · cases hm with
          | refl => left; rw [he]
        · right; exact ⟨ds₀, hm, he, hn⟩

theorem initPass_length (txIDs : List Nat) (txs : List STx) :
    (initPass txIDs txs).1.length + (initPass txIDs txs).2.length
      = txs.length := by
  induction txs with
  | nil => rfl
  | cons t rest ih =>
    rw [initPass]
    by_cases h : depsInTxs txIDs t = [] <;> simp [h] <;> omega

theorem initPass_perm (txIDs : List Nat) (txs : List STx) :
    ((initPass txIDs txs).1 ++ (initPass txIDs txs).2.map Prod.fst).Perm
      txs := by
  induction txs with
  | nil => rfl
  | cons t rest ih =>
    rw [initPass]
    by_cases h : depsInTxs txIDs t = []
    · rw [if_pos h]
      simpa using ih.cons t
    · rw [if_neg h]
      refine List.Perm.trans ?_ (ih.cons t)
      simpa using List.perm_middle

theorem initPass_noDeps_mem (txIDs : List Nat) (txs : List STx) (u : STx)
    (hu : u ∈ (initPass txIDs txs).1) :
    u ∈ txs ∧ depsInTxs txIDs u = [] := by
  induction txs with
  | nil => cases hu
  | cons t rest ih =>
    rw [initPass] at hu
    by_cases h : depsInTxs txIDs t = []
    · rw [if_pos h] at hu
      rcases List.mem_cons.1 hu with rfl | hu'
      · exact ⟨List.mem_cons_self _ _, h⟩
      · obtain ⟨h1, h2⟩ := ih hu'
        exact ⟨List.mem_cons_of_mem _ h1, h2⟩
    · rw [if_neg h] at hu
      obtain ⟨h1, h2⟩ := ih hu
      exact ⟨List.mem_cons_of_mem _ h1, h2⟩

theorem initPass_pending_mem (txIDs : List Nat) (txs : List STx)
    (e : STx × List Nat) (he : e ∈ (initPass txIDs txs).2) :
    e.1 ∈ txs ∧ e.2 = depsInTxs txIDs e.1 ∧ e.2 ≠ [] := by
  induction txs with
  | nil => cases he
  | cons t rest ih =>
    rw [initPass] at he
    by_cases h : depsInTxs txIDs t = []
    · rw [if_pos h] at he
      obtain ⟨h1, h2⟩ := ih he
      exact ⟨List.mem_cons_of_mem _ h1, h2⟩
    · rw [if_neg h] at he
      rcases List.mem_cons.1 he with rfl | he'
      · exact ⟨List.mem_cons_self _ _, rfl, h⟩
      · obtain ⟨h1, h2⟩ := ih he'
        exact ⟨List.mem_cons_of_mem _ h1, h2⟩

theorem initPass_cover (txIDs : List Nat) (txs : List STx) (t : STx)
    (ht : t ∈ txs) :
    t ∈ (initPass txIDs txs).1 ∨ ∃ ds, (t, ds) ∈ (initPass txIDs txs).2 := by
  induction txs with
  | nil => cases ht
  | cons w rest ih =>
    rw [initPass]
    rcases List.mem_cons.1 ht with rfl | ht'
    · by_cases h : depsInTxs txIDs t = []
      · rw [if_pos h]; exact Or.inl (List.mem_cons_self _ _)
      · rw [if_neg h]
        exact Or.inr ⟨depsInTxs txIDs t, List.mem_cons_self _ _⟩
    · by_cases h : depsInTxs txIDs w = []
      · rw [if_pos h]
        rcases ih ht' with h1 | ⟨ds, h2⟩
        · exact Or.inl (List.mem_cons_of_mem _ h1)
        · exact Or.inr ⟨ds, h2⟩
      · rw [if_neg h]
        rcases ih ht' with h1 | ⟨ds, h2⟩
        · exact Or.inl h1
        · exact Or.inr ⟨ds, List.mem_cons_of_mem _ h2⟩

theorem orderedFrom_append (txIDs : List Nat) (l₁ l₂ : List STx) :
    ∀ seen, orderedFrom txIDs seen (l₁ ++ l₂) =
      (orderedFrom txIDs seen l₁ &&
        orderedFrom txIDs (seen ++ l₁.map STx.id) l₂) := by
  induction l₁ with
  | nil => intro seen; simp [orderedFrom]
  | cons u rest ih =>
    intro seen
    simp only [List.cons_append, orderedFrom, List.map_cons, List.append_eq]
    rw [ih]
    simp [Bool.and_assoc, List.append_assoc]

theorem sortLoop_length_le (fuel : Nat) :
    ∀ (sorted noDeps : List STx) (pending : List (STx × List Nat)),
    (sortLoop fuel sorted noDeps pending).length ≤
      sorted.length + noDeps.length + pending.length := by
  induction fuel with
  | zero =>
    intro sorted noDeps pending
    cases noDeps <;> rw [sortLoop] <;> omega
  | succ fuel ih =>
    intro sorted noDeps pending
    cases noDeps with
    | nil => rw [sortLoop]; omega
    | cons tx rest =>
      rw [sortLoop]
      have h := ih (sorted ++ [tx]) (rest ++ (sortStep tx.id pending).1)
        (sortStep tx.id pending).2
      have hs := sortStep_length tx.id pending
      simp only [List.length_append, List.length_cons, List.length_nil]
        at h ⊢
      omega

theorem sortLoop_perm_of_length (fuel : Nat) :
    ∀ (sorted noDeps : List STx) (pending : List (STx × List Nat)),
    (sortLoop fuel sorted noDeps pending).length =
      sorted.length + noDeps.length + pending.length →
    (sortLoop fuel sorted noDeps pending).Perm
      (sorted ++ noDeps ++ pending.map Prod.fst) := by
  induction fuel with
  | zero =>
    intro sorted noDeps pending hlen
    cases noDeps with
    | nil =>
      rw [sortLoop] at hlen ⊢
      have : pending = [] := by
        cases pending with
        | nil => rfl
        | cons e p =>
          simp only [List.length_nil, List.length_cons] at hlen
          omega
      subst this
      simp
    | cons tx rest =>
      rw [sortLoop] at hlen
      simp only [List.length_cons] at hlen
      omega
  | succ fuel ih =>
    intro sorted noDeps pending hlen
    cases noDeps with
    | nil =>
      rw [sortLoop] at hlen ⊢
      have : pending = [] := by
        cases pending with
        | nil => rfl
        | cons e p =>
          simp only [List.length_nil, List.length_cons] at hlen
          omega
      subst this
      simp
    | cons tx rest =>
      rw [sortLoop] at hlen ⊢
      have hs := sortStep_length tx.id pending
      have hlen' : (sortLoop fuel (sorted ++ [tx])
          (rest ++ (sortStep tx.id pending).1)
          (sortStep tx.id pending).2).length =
          (sorted ++ [tx]).length +
          (rest ++ (sortStep tx.id pending).1).length +
          (sortStep tx.id pending).2.length := by
        simp only [List.length_append, List.length_cons,
          List.length_nil] at hlen ⊢
        omega
      have hperm := ih _ _ _ hlen'
      refine hperm.trans ?_
      have h1 : sorted ++ [tx] ++ (rest ++ (sortStep tx.id pending).1) ++
          (sortStep tx.id pending).2.map Prod.fst =
          (sorted ++ tx :: rest) ++
            ((sortStep tx.id pending).1 ++
              (sortStep tx.id pending).2.map Prod.fst) := by
        simp
      rw [h1]
      have h2 : sorted ++ (tx :: rest) ++ pending.map Prod.fst =
          (sorted ++ tx :: rest) ++ pending.map Prod.fst := rfl
      rw [h2]
      exact (sortStep_perm tx.id pending).append_left _

theorem sortLoop_ordered (txIDs : List Nat) (fuel : Nat) :
    ∀ (sorted noDeps : List STx) (pending : List (STx × List Nat)),
    orderedFrom txIDs [] sorted = true →
    (∀ u ∈ noDeps, ∀ d ∈ depsInTxs txIDs u, d ∈ sorted.map STx.id) →
    (∀ u ds, (u, ds) ∈ pending → ∀ d,
      (d ∈ ds ↔ d ∈ depsInTxs txIDs u ∧ d ∉ sorted.map STx.id)) →
    orderedFrom txIDs [] (sortLoop fuel sorted noDeps pending) = true := by
  induction fuel with
  | zero =>
    intro sorted noDeps pending hsorted hnd hp
    cases noDeps <;> rw [sortLoop] <;> exact hsorted
  | succ fuel ih =>
    intro sorted noDeps pending hsorted hnd hp
    cases noDeps with
    | nil => rw [sortLoop]; exact hsorted
    | cons tx rest =>
      rw [sortLoop]
      apply ih
      · rw [orderedFrom_append]
        simp only [hsorted, Bool.true_and, orderedFrom, Bool.and_true,
          List.nil_append]
        simp only [List.all_eq_true]
        intro d hd
        have := hnd tx (List.mem_cons_self _ _) d hd
        simpa using this
      · intro u hu d hd
        rcases List.mem_append.1 hu with hu' | hu'
        · have := hnd u (List.mem_cons_of_mem _ hu') d hd
          simp only [List.map_append, List.mem_append]
          exact Or.inl this
        · obtain ⟨ds, hm, hnil⟩ := (sortStep_freed_mem _ _ _).1 hu'
          by_cases hds : d ∈ sorted.map STx.id
          · simp only [List.map_append, List.mem_append]
            exact Or.inl hds
          · have hdds : d ∈ ds := (hp u ds hm d).2 ⟨hd, hds⟩
            have := removeId_eq_nil_mem ds tx.id d hnil hdds
            simp [this]
      · intro u ds' hm d
        obtain ⟨ds₀, hm₀, he, hne⟩ := (sortStep_keep_mem _ _ _ _).1 hm
        rw [he, removeId_mem, hp u ds₀ hm₀ d]
        simp only [List.map_append, List.mem_append, List.map_cons,
          List.map_nil, List.mem_singleton]
        constructor
        · rintro ⟨⟨h1, h2⟩, h3⟩
          exact ⟨h1, by intro h; rcases h with h | h; exact h2 h; exact h3 h⟩
        · rintro ⟨h1, h2⟩
          exact ⟨⟨h1, fun h => h2 (Or.inl h)⟩, fun h => h2 (Or.inr h)⟩

theorem pending_empty_of_stall (txIDs : List Nat) (rank : Nat → Nat)
    (sorted : List STx) (pending : List (STx × List Nat))
    (hpne : ∀ u ds, (u, ds) ∈ pending → ds ≠ [])
    (hcov : ∀ d, d ∈ txIDs → d ∉ sorted.map STx.id →
      (∃ u, u ∈ ([] : List STx) ∧ u.id = d) ∨ ∃ e, e ∈ pending ∧ e.1.id = d)
    (hrank : ∀ u ds, (u, ds) ∈ pending → ∀ d ∈ ds,
      d ∈ txIDs ∧ d ∉ sorted.map STx.id ∧ rank d < rank u.id) :
    pending = [] := by
  cases hpending : pending with
  | nil => rfl
  | cons e p =>
    exfalso
    have key : ∀ r, ∀ u ds, (u, ds) ∈ pending → rank u.id < r → False := by
      intro r
      induction r with
      | zero => intro u ds hm hr; omega
      | succ r ihr =>
        intro u ds hm hr
        obtain ⟨d, hd⟩ := List.exists_mem_of_ne_nil _ (hpne u ds hm)
        obtain ⟨hdid, hdns, hdr⟩ := hrank u ds hm d hd
        rcases hcov d hdid hdns with ⟨u', hu', _⟩ | ⟨e', he', heid⟩
        · cases hu'
        · exact ihr e'.1 e'.2 he' (by rw [heid]; omega)
    exact key (rank e.1.id + 1) e.1 e.2
      (by rw [hpending]; exact List.mem_cons_self _ _) (Nat.lt_succ_self _)

theorem sortLoop_complete (txIDs : List Nat) (rank : Nat → Nat) (fuel : Nat) :
    ∀ (sorted noDeps : List STx) (pending : List (STx × List Nat)),
    noDeps.length + pending.length ≤ fuel →
    (∀ u ds, (u, ds) ∈ pending → ds ≠ []) →
    (∀ d, d ∈ txIDs → d ∉ sorted.map STx.id →
      (∃ u, u ∈ noDeps ∧ u.id = d) ∨ ∃ e, e ∈ pending ∧ e.1.id = d) →
    (∀ u ds, (u, ds) ∈ pending → ∀ d ∈ ds,
      d ∈ txIDs ∧ d ∉ sorted.map STx.id ∧ rank d < rank u.id) →
    (sortLoop fuel sorted noDeps pending).length =
      sorted.length + noDeps.length + pending.length := by
  induction fuel with
  | zero =>
    intro sorted noDeps pending hfuel hpne hcov hrank
    cases noDeps with
    | nil =>
      rw [sortLoop]
      have := pending_empty_of_stall txIDs rank sorted pending hpne hcov hrank
      subst this
      simp
    | cons tx rest =>
      exfalso
      simp only [List.length_cons] at hfuel
      omega
  | succ fuel ih =>
    intro sorted noDeps pending hfuel hpne hcov hrank
    cases noDeps with
    | nil =>
      rw [sortLoop]
      have := pending_empty_of_stall txIDs rank sorted pending hpne hcov hrank
      subst this
      simp
    | cons tx rest =>
      rw [sortLoop]
      have hs := sortStep_length tx.id pending
      have hrec := ih (sorted ++ [tx]) (rest ++ (sortStep tx.id pending).1)
        (sortStep tx.id pending).2
        (by simp only [List.length_append] at hfuel ⊢
            simp only [List.length_cons] at hfuel
            omega)
        (by intro u ds hm
            obtain ⟨ds₀, hm₀, he, hne⟩ := (sortStep_keep_mem _ _ _ _).1 hm
            rw [he]; exact hne)
        (by intro d hdid hdns
            have hdns' : d ∉ sorted.map STx.id ∧ d ≠ tx.id := by
              simp only [List.map_append, List.mem_append, List.map_cons,
                List.map_nil, List.mem_singleton] at hdns
              tauto
            rcases hcov d hdid hdns'.1 with ⟨u, hu, huid⟩ | ⟨e, he, heid⟩
            · rcases List.mem_cons.1 hu with rfl | hu'
              · exact absurd huid.symm hdns'.2
              · exact Or.inl ⟨u, List.mem_append_left _ hu', huid⟩
            · by_cases hh : removeId e.2 tx.id = []
              · refine Or.inl ⟨e.1, List.mem_append_right _ ?_, heid⟩
                exact (sortStep_freed_mem _ _ _).2 ⟨e.2, he, hh⟩
              · refine Or.inr ⟨(e.1, removeId e.2 tx.id), ?_, heid⟩
                exact (sortStep_keep_mem _ _ _ _).2 ⟨e.2, he, rfl, hh⟩)
        (by intro u ds' hm d hd
            obtain ⟨ds₀, hm₀, he, hne⟩ := (sortStep_keep_mem _ _ _ _).1 hm
            rw [he, removeId_mem] at hd
            obtain ⟨hd₀, hdne⟩ := hd
            obtain ⟨hid, hns, hr⟩ := hrank u ds₀ hm₀ d hd₀
            refine ⟨hid, ?_, hr⟩
            simp only [List.map_append, List.mem_append, List.map_cons,
              List.map_nil, List.mem_singleton]
            rintro (h | h)
            · exact hns h
            · exact hdne h)
      rw [hrec]
      simp only [List.length_append, List.length_cons, List.length_nil]
      omega

/-- Index of the first occurrence of `d` (length of the list if absent),
used to build a rank function from a topological order. -/
def idxN (d : Nat) : List Nat → Nat
  | [] => 0
  | x :: xs => if x = d then 0 else idxN d xs + 1

theorem idxN_append_lt (d : Nat) (l₁ l₂ : List Nat) (h : d ∈ l₁) :
    idxN d (l₁ ++ l₂) < l₁.length := by
  induction l₁ with
  | nil => cases h
  | cons x xs ih =>
    rw [List.cons_append, idxN]
    by_cases hx : x = d
    · rw [if_pos hx]; simp
    · rw [if_neg hx]
      have hd : d ∈ xs := by
        rcases List.mem_cons.1 h with h' | h'
        · exact absurd h'.symm hx
        · exact h'
      have := ih hd
      simp only [List.length_cons]
      omega

theorem idxN_append_nmem (d : Nat) (l₁ l₂ : List Nat) (h : d ∉ l₁) :
    idxN d (l₁ ++ l₂) = l₁.length + idxN d l₂ := by
  induction l₁ with
  | nil => simp [idxN]
  | cons x xs ih =>
    rw [List.cons_append, idxN]
    have hx : x ≠ d := fun he => h (by rw [he]; exact List.mem_cons_self _ _)
    rw [if_neg hx, ih (fun hm => h (List.mem_cons_of_mem _ hm))]
    simp only [List.length_cons]
    omega

theorem orderedFrom_split (txIDs : List Nat) (l₁ : List STx) (t : STx)
    (l₂ : List STx) (seen : List Nat)
    (h : orderedFrom txIDs seen (l₁ ++ t :: l₂) = true)
    (d : Nat) (hd : d ∈ depsInTxs txIDs t) : d ∈ seen ++ l₁.map STx.id := by
  rw [orderedFrom_append] at h
  simp only [Bool.and_eq_true] at h
  have h2 := h.2
  rw [orderedFrom] at h2
  simp only [Bool.and_eq_true, List.all_eq_true] at h2
  have := h2.1 d hd
  simpa using this

theorem ordered_rank (txIDs : List Nat) (out : List STx)
    (hnodup : (out.map STx.id).Nodup)
    (hord : orderedFrom txIDs [] out = true) :
    ∀ t ∈ out, ∀ d ∈ depsInTxs txIDs t,
      idxN d (out.map STx.id) < idxN t.id (out.map STx.id) := by
  intro t ht d hd
  obtain ⟨l₁, l₂, rfl⟩ := List.append_of_mem ht
  have hsplit := orderedFrom_split txIDs l₁ t l₂ [] hord d hd
  simp only [List.nil_append] at hsplit
  have hmap : (l₁ ++ t :: l₂).map STx.id =
      l₁.map STx.id ++ t.id :: l₂.map STx.id := by simp
  rw [hmap] at hnodup ⊢
  have h1 := idxN_append_lt d (l₁.map STx.id) (t.id :: l₂.map STx.id) hsplit
  have hnid : t.id ∉ l₁.map STx.id := by
    intro hmem
    obtain ⟨-, -, hdisj⟩ := List.nodup_append.1 hnodup
    exact hdisj hmem (List.mem_cons_self _ _)
  have h2 := idxN_append_nmem t.id (l₁.map STx.id) (t.id :: l₂.map STx.id) hnid
  have h3 : idxN t.id (t.id :: l₂.map STx.id) = 0 := by simp [idxN]
  omega

/-- C10: over transactions with distinct IDs, if the dependency relation
restricted to the list admits a rank function (is acyclic),
TopologicalSort succeeds and returns a permutation of the list in which
every transaction appears after each of its in-list dependencies; every
successful result is such a permutation and certifies acyclicity by
yielding a rank function; and if no rank function exists (the restricted
relation has a cycle), TopologicalSort returns an error. -/
theorem c10_topological_sort (txs : List STx)
    (hnodup : (txs.map STx.id).Nodup) :
    ((∃ rank : Nat → Nat, ∀ t ∈ txs, ∀ d ∈ t.deps,
        d ∈ txs.map STx.id → rank d < rank t.id) →
      ∃ out, TopologicalSort txs = some out ∧ out.Perm txs ∧
        orderedFrom (txs.map STx.id) [] out = true) ∧
    (∀ out, TopologicalSort txs = some out →
      out.Perm txs ∧ orderedFrom (txs.map STx.id) [] out = true ∧
      ∃ rank : Nat → Nat, ∀ t ∈ txs, ∀ d ∈ t.deps,
        d ∈ txs.map STx.id → rank d < rank t.id) ∧
    ((¬∃ rank : Nat → Nat, ∀ t ∈ txs, ∀ d ∈ t.deps,
        d ∈ txs.map STx.id → rank d < rank t.id) →
      TopologicalSort txs = none) := by
  have hlen0 := initPass_length (txs.map STx.id) txs
  have hordered : orderedFrom (txs.map STx.id) []
      (sortLoop txs.length [] (initPass (txs.map STx.id) txs).1
        (initPass (txs.map STx.id) txs).2) = true := by
    apply sortLoop_ordered
    · rfl
    · intro u hu d hd
      rw [(initPass_noDeps_mem _ _ _ hu).2] at hd
      cases hd
    · intro u ds hm d
      have h := initPass_pending_mem _ _ _ hm
      have h2 : ds = depsInTxs (txs.map STx.id) u := h.2.1
      rw [h2]
      simp
  have hperm : ∀ hl : (sortLoop txs.length []
        (initPass (txs.map STx.id) txs).1
        (initPass (txs.map STx.id) txs).2).length = txs.length,
      (sortLoop txs.length [] (initPass (txs.map STx.id) txs).1
        (initPass (txs.map STx.id) txs).2).Perm txs := by
    intro hl
    have h := sortLoop_perm_of_length txs.length []
      (initPass (txs.map STx.id) txs).1 (initPass (txs.map STx.id) txs).2
      (by simp only [List.length_nil]; omega)
    refine h.trans ?_
    simpa using initPass_perm (txs.map STx.id) txs
  have partB : ∀ out, TopologicalSort txs = some out →
      out.Perm txs ∧ orderedFrom (txs.map STx.id) [] out = true ∧
      ∃ rank : Nat → Nat, ∀ t ∈ txs, ∀ d ∈ t.deps,
        d ∈ txs.map STx.id → rank d < rank t.id := by
    intro out hout
    rw [TopologicalSort] at hout
    by_cases hl : (sortLoop txs.length []
        (initPass (txs.map STx.id) txs).1
        (initPass (txs.map STx.id) txs).2).length = txs.length
    · rw [if_pos hl] at hout
      have hout' := Option.some.inj hout
      subst hout'
      refine ⟨hperm hl, hordered, ?_⟩
      refine ⟨fun d => idxN d ((sortLoop txs.length []
        (initPass (txs.map STx.id) txs).1
        (initPass (txs.map STx.id) txs).2).map STx.id), ?_⟩
      intro t ht d hdep hdid
      have hout_nodup : ((sortLoop txs.length []
          (initPass (txs.map STx.id) txs).1
          (initPass (txs.map STx.id) txs).2).map STx.id).Nodup :=
        (((hperm hl).map STx.id).nodup_iff).2 hnodup
      exact ordered_rank (txs.map STx.id) _ hout_nodup hordered t
        (((hperm hl).mem_iff).2 ht) d
        ((depsInTxs_mem _ _ _).2 ⟨hdep, hdid⟩)
    · rw [if_neg hl] at hout
      cases hout
  have partA : (∃ rank : Nat → Nat, ∀ t ∈ txs, ∀ d ∈ t.deps,
        d ∈ txs.map STx.id → rank d < rank t.id) →
      ∃ out, TopologicalSort txs = some out ∧ out.Perm txs ∧
        orderedFrom (txs.map STx.id) [] out = true := by
    rintro ⟨rank, hrank⟩
    have hcomplete := sortLoop_complete (txs.map STx.id) rank txs.length
      [] (initPass (txs.map STx.id) txs).1 (initPass (txs.map STx.id) txs).2
      (by omega)
      (by intro u ds hm; exact (initPass_pending_mem _ _ _ hm).2.2)
      (by intro d hdid _
          obtain ⟨t, ht, rfl⟩ := List.mem_map.1 hdid
          rcases initPass_cover (txs.map STx.id) txs t ht with h | ⟨ds, h⟩
          · exact Or.inl ⟨t, h, rfl⟩
          · exact Or.inr ⟨(t, ds), h, rfl⟩)
      (by intro u ds hm d hd
          have h := initPass_pending_mem _ _ _ hm
          have h2 : ds = depsInTxs (txs.map STx.id) u := h.2.1
          rw [h2] at hd
          obtain ⟨hdep, hdid⟩ := (depsInTxs_mem _ _ _).1 hd
          exact ⟨hdid, by simp, hrank u h.1 d hdep hdid⟩)
    have hl : (sortLoop txs.length []
        (initPass (txs.map STx.id) txs).1
        (initPass (txs.map STx.id) txs).2).length = txs.length := by
      rw [hcomplete]
      simp only [List.length_nil]
      omega
    refine ⟨_, ?_, hperm hl, hordered⟩
    rw [TopologicalSort, if_pos hl]
  refine ⟨partA, partB, ?_⟩
  intro hnr
  cases h : TopologicalSort txs with
  | none => rfl
  | some out => exact absurd (partB out h).2.2 hnr

/-- Witness for C10: the three-transaction chain 0 ← 1 ← 2 with identity
rank function is acyclic, so TopologicalSort succeeds with an ordered
permutation. -/
theorem c10_witness :
    ∃ out,
      TopologicalSort [⟨0, []⟩, ⟨1, [0]⟩, ⟨2, [0, 1]⟩] = some out ∧
      out.Perm [⟨0, []⟩, ⟨1, [0]⟩, ⟨2, [0, 1]⟩] ∧
      orderedFrom [0, 1, 2] [] out = true :=
  (c10_topological_sort [⟨0, []⟩, ⟨1, [0]⟩, ⟨2, [0, 1]⟩] (by decide)).1
    ⟨fun d => d, by decide⟩

/-- A vertex as seen by `voter.bubbleVotes`: ID, height, status and
parent IDs. -/
structure BVtx where
  vid : Nat
  height : Nat
  status : Status
  parents : List Nat
deriving Repr, DecidableEq

/-- The collaborators `bubbleVotes` consults: `Manager.GetVertex`
(`none` models an error) and `Consensus.VertexIssued`. -/
structure BWorld where
  getVertex : Nat → Option BVtx
  issued : Nat → Bool

/-- Modelled from the spec: `vertex.NewHeap` is a max-height vertex heap
that yields each pushed vertex once, highest first, so the ancestry walk
proceeds top-down; kept as a height-descending list. -/
def insertDesc : List BVtx → BVtx → List BVtx
  | [], v => [v]
  | w :: ws, v =>
    if w.height < v.height then v :: w :: ws else w :: insertDesc ws v

/-- Modelled from the spec: push onto the max-height heap, suppressing a
vertex that is already queued. -/
def heapPush (h : List BVtx) (v : BVtx) : List BVtx :=
  if h.any (fun w => w.vid == v.vid) then h else insertDesc h v

/-- `votes.GetSet(id)` on the immutable input bag, an association list
from voted-for vertex ID to the set of voters. -/
def getSetA (votes : List (Nat × List Nat)) (k : Nat) : List Nat :=
  ((votes.find? (fun e => e.1 == k)).map Prod.snd).getD []

/-- The per-parent half of the not-issued branch of `bubbleVotes`: for
each parent that `GetVertex` resolves, `bubbledVotes.UnionSet(parentID,
set)` and push the parent onto the heap. -/
def bubbleParents (w : BWorld) (set : List Nat) :
    List Nat → List BVtx → (Nat → List Nat) → List BVtx × (Nat → List Nat)
  | [], heap, bub => (heap, bub)
  | p :: ps, heap, bub =>
    match w.getVertex p with
    | some pv => bubbleParents w set ps (heapPush heap pv)
        (fun i => if i = p then addIds (bub i) set else bub i)
    | none => bubbleParents w set ps heap bub

/-- The heap walk of `voter.bubbleVotes` (voter.go lines 115–156). Note
two aspects taken verbatim from the source: `set` is read with
`votes.GetSet(vtxID)` from the ORIGINAL vote bag each iteration, and the
not-issued branch performs `bubbledVotes.RemoveSet(vtx.ID())` before
bubbling `set` to the parents. `!status.Fetched()` is the Unknown case
and `status.Decided()` the Accepted/Rejected case. The Go loop runs
until the heap empties; the fuel makes termination explicit. -/
def bubbleLoop (w : BWorld) (votes : List (Nat × List Nat)) :
    Nat → List BVtx → (Nat → List Nat) → (Nat → List Nat)
  | 0, _, bub => bub
  | _ + 1, [], bub => bub
  | fuel + 1, vtx :: heap, bub =>
    if vtx.status = Status.Unknown then
      bubbleLoop w votes fuel heap
        (fun i => if i = vtx.vid then [] else bub i)
    else if vtx.status = Status.Accepted ∨ vtx.status = Status.Rejected then
      bubbleLoop w votes fuel heap
        (fun i => if i = vtx.vid then [] else bub i)
    else if w.issued vtx.vid then
      bubbleLoop w votes fuel heap
        (fun i => if i = vtx.vid then
          addIds (bub i) (getSetA votes vtx.vid) else bub i)
    else
      bubbleLoop w votes fuel
        (bubbleParents w (getSetA votes vtx.vid) vtx.parents heap
          (fun i => if i = vtx.vid then [] else bub i)).1
        (bubbleParents w (getSetA votes vtx.vid) vtx.parents heap
          (fun i => if i = vtx.vid then [] else bub i)).2

/-- The initial heap of `bubbleVotes`: every voted-for vertex that
`GetVertex` resolves; unresolved ones are skipped (their votes are
dropped). -/
def initHeap (w : BWorld) (votes : List (Nat × List Nat)) : List BVtx :=
  votes.foldl (fun h e =>
    match w.getVertex e.1 with
    | some v => heapPush h v
    | none => h) []

/-- `voter.bubbleVotes`, returning the bubbled vote bag. -/
def bubbleVotes (w : BWorld) (votes : List (Nat × List Nat)) (fuel : Nat) :
    Nat → List Nat :=
  bubbleLoop w votes fuel (initHeap w votes) (fun _ => [])

/-- The failing input: a chain of known processing vertices
3 (height 2) → 2 (height 1) → 1 (height 0) where only vertex 1 has been
issued into consensus, and voter 7's chit references vertex 3. -/
def c2w : BWorld where
  getVertex := fun i =>
    if i = 3 then some ⟨3, 2, Status.Processing, [2]⟩
    else if i = 2 then some ⟨2, 1, Status.Processing, [1]⟩
    else if i = 1 then some ⟨1, 0, Status.Processing, []⟩
    else none
  issued := fun i => i == 1

/-- The same chain with vertex 2 already issued, so only one level of
bubbling is needed. -/
def c2wIssued : BWorld where
  getVertex := c2w.getVertex
  issued := fun i => i == 1 || i == 2

/-- C2 (code bug): on the failing input, the nearest known, issued,
undecided ancestor of the voted-for vertex 3 is vertex 1 (two levels
up), so per the spec voter 7's chit must be applied at vertex 1 — but
bubbleVotes returns an empty bag: when the intermediate unissued vertex
2 is popped, `votes.GetSet(2)` reads the original bag (empty for 2) and
`bubbledVotes.RemoveSet(2)` erases the votes previously bubbled onto 2,
so nothing reaches vertex 1. A single level of bubbling (vertex 2
issued) does deliver the chit, confirming multi-level bubbling as the
broken case. -/
theorem c2_bubble_votes_drop :
    (c2w.issued 3 = false ∧ c2w.issued 2 = false ∧ c2w.issued 1 = true ∧
      c2w.getVertex 3 = some ⟨3, 2, Status.Processing, [2]⟩ ∧
      c2w.getVertex 2 = some ⟨2, 1, Status.Processing, [1]⟩ ∧
      c2w.getVertex 1 = some ⟨1, 0, Status.Processing, []⟩) ∧
    (bubbleVotes c2w [(3, [7])] 10 1 = [] ∧
      bubbleVotes c2w [(3, [7])] 10 2 = [] ∧
      bubbleVotes c2w [(3, [7])] 10 3 = []) ∧
    bubbleVotes c2wIssued [(3, [7])] 10 2 = [7] := by
  refine ⟨⟨rfl, rfl, rfl, rfl, rfl, rfl⟩, ⟨?_, ?_, ?_⟩, ?_⟩ <;> decide
